import Mathlib

/-!
Verification development for the protected-path synchronization engine of the
`assignment-pull-request` repository.

The Go source is shallowly embedded: pure string manipulation is translated
directly; interactions with the operating system (file system, git child
processes, clocks, environment variables) are modelled by explicit environment
records whose fields hold the outcomes the operating system would return, and
the control flow of each Go function is translated statement by statement over
those records.  Strings are modelled as lists of characters (`Str`), matching
Go's byte-wise view for the ASCII data handled by this program.
-/

/-- Strings, modelled as lists of characters. -/
abbrev Str := List Char

/-- Character comparison used for Go's byte-wise string ordering
(`<` on `string`), restricted to the code points used here. -/
def charLeNat (a b : Char) : Bool := Nat.ble a.toNat b.toNat

/-- Lexicographic `<=` on strings, as Go's `<`/`<=` on `string` computes it
byte by byte. -/
def strLe : Str → Str → Bool
  | [], _ => true
  | _ :: _, [] => false
  | a :: as, b :: bs =>
    if a.toNat < b.toNat then true
    else if b.toNat < a.toNat then false
    else strLe as bs

theorem strLe_cons_iff (a b : Char) (as bs : Str) :
    strLe (a :: as) (b :: bs) = true ↔
      a.toNat < b.toNat ∨ (a.toNat = b.toNat ∧ strLe as bs = true) := by
  simp only [strLe]
  rcases Nat.lt_trichotomy a.toNat b.toNat with h | h | h
  · simp [h]
  · simp [h, Nat.lt_irrefl]
  · have h1 : ¬ a.toNat < b.toNat := by omega
    have h2 : ¬ a.toNat = b.toNat := by omega
    simp [h, h1, h2]

theorem strLe_trans : ∀ a b c : Str,
    strLe a b = true → strLe b c = true → strLe a c = true := by
  intro a
  induction a with
  | nil => intro b c _ _; rfl
  | cons x xs ih =>
    intro b c hab hbc
    cases b with
    | nil => simp [strLe] at hab
    | cons y ys =>
      cases c with
      | nil => simp [strLe] at hbc
      | cons z zs =>
        rw [strLe_cons_iff] at hab hbc ⊢
        rcases hab with h1 | ⟨h1, h1'⟩ <;> rcases hbc with h2 | ⟨h2, h2'⟩
        · exact Or.inl (Nat.lt_trans h1 h2)
        · exact Or.inl (h2 ▸ h1)
        · exact Or.inl (h1 ▸ h2)
        · exact Or.inr ⟨h1.trans h2, ih ys zs h1' h2'⟩

theorem strLe_total : ∀ a b : Str, (strLe a b || strLe b a) = true := by
  intro a
  induction a with
  | nil => intro b; simp [strLe]
  | cons x xs ih =>
    intro b
    cases b with
    | nil => simp [strLe]
    | cons y ys =>
      rcases Nat.lt_trichotomy x.toNat y.toNat with h | h | h
      · simp [strLe_cons_iff, h]
      · have := ih ys
        rcases Bool.or_eq_true_iff.mp this with h' | h'
        · simp [strLe_cons_iff, h, h']
        · simp [strLe_cons_iff, h, h']
      · simp [strLe_cons_iff, h]

/-- Whitespace recognised by Go's `unicode.IsSpace` for the ASCII range,
as used by `strings.TrimSpace`. -/
def isSpaceChar (c : Char) : Bool :=
  c = ' ' || c = '\t' || c = '\n' || c = '\r' ||
  c.toNat = 11 || c.toNat = 12

/-- `strings.TrimSpace`: drop leading and trailing whitespace. -/
def strTrim (s : Str) : Str :=
  ((s.dropWhile isSpaceChar).reverse.dropWhile isSpaceChar).reverse

namespace Protect

/-! ## LockManager (`internal/protect/lock.go`)

`readLockPID` reads the lock file and evaluates `data[:len(data)-1]` before
parsing the process id with `strconv.Atoi`.  Go slice expressions panic at run
time when the upper bound is negative, so the slice is modelled by a partial
function (`none` = run-time panic), and `readLockPID` returns `none` exactly
when the Go original panics. -/

/-- Go slice expression `xs[:hi]` with an `int` upper bound: defined when
`0 <= hi <= len(xs)`, a run-time panic (`none`) otherwise. -/
def goSliceUpto (xs : Str) (hi : Int) : Option Str :=
  if 0 ≤ hi ∧ hi ≤ (xs.length : Int) then some (xs.take hi.toNat) else none

/-- Decimal digit test for `strconv.Atoi`. -/
def isDigitChar (c : Char) : Bool := 48 ≤ c.toNat && c.toNat ≤ 57

/-- Accumulate decimal digits; `none` on the first non-digit. -/
def digitsAux (acc : Nat) : Str → Option Nat
  | [] => some acc
  | c :: cs => if isDigitChar c then digitsAux (acc * 10 + (c.toNat - 48)) cs else none

/-- Parse a non-empty all-digit string. -/
def digitsVal : Str → Option Nat
  | [] => none
  | s => digitsAux 0 s

/-- `strconv.Atoi`: optional sign, then at least one decimal digit and
nothing else; anything else is a syntax error. -/
def goAtoi (s : Str) : Except String Int :=
  match s with
  | [] => .error "invalid syntax"
  | '+' :: rest =>
    match digitsVal rest with
    | some n => .ok (n : Int)
    | none => .error "invalid syntax"
  | '-' :: rest =>
    match digitsVal rest with
    | some n => .ok (-(n : Int))
    | none => .error "invalid syntax"
  | _ =>
    match digitsVal s with
    | some n => .ok (n : Int)
    | none => .error "invalid syntax"

/-- `readLockPID` on the content of an existing lock file.
`none` models a Go run-time panic (out-of-bounds slice); `some r` is the
normal return of `(pid, err)`. -/
def readLockPID (content : Str) : Option (Except String Int) :=
  match goSliceUpto content ((content.length : Int) - 1) with
  | none => none
  | some trimmed => some (goAtoi trimmed)

/-! ### `acquireLock` retry loop

`acquireLock` polls `os.OpenFile(..., O_CREATE|O_EXCL, ...)` until a 30 s
deadline, sleeping 100 ms when the lock is held by a live process and
retrying immediately (no sleep) after deleting a stale lock.  Time is
modelled in milliseconds; the environment supplies, per attempt, the outcome
the operating system would produce for that attempt.  The events emitted let
the theorems talk about what the loop did between attempts. -/

/-- Outcome the operating system gives one `os.OpenFile` attempt, together
with what a subsequent `readLockPID` / `isProcessRunning` would report. -/
inductive Attempt where
  /-- The exclusive create succeeded; `writeOk` is whether writing the PID
  succeeds. -/
  | openOk (writeOk : Bool)
  /-- The lock file already exists; `readPid` is `readLockPID`'s result
  (`none` = read error) and `alive` is `isProcessRunning pid`. -/
  | openExists (readPid : Option Int) (alive : Bool)
  /-- `os.OpenFile` failed with an error other than "already exists". -/
  | openOtherErr
deriving DecidableEq

/-- Observable events of one `acquireLock` run. -/
inductive LockEv where
  | removedStale
  | slept
deriving DecidableEq

/-- Result of `acquireLock`. -/
inductive AcqResult where
  | acquired
  | writeErr
  | timeoutErr
  /-- The modelled attempt trace ended before the loop decided. -/
  | outOfTrace
deriving DecidableEq

/-- The lock acquisition timeout: 30 seconds, in milliseconds. -/
def lockTimeoutMs : Nat := 30000

/-- Sleep between retries while the lock is held: 100 milliseconds. -/
def lockSleepMs : Nat := 100

/-- The `acquireLock` polling loop.  `now` is the current time in
milliseconds since the deadline clock started; the loop guard is
`time.Now().Before(deadline)`, i.e. `now < 30000`. -/
def acquireLoop : Nat → List Attempt → AcqResult × List LockEv
  | now, [] =>
    if lockTimeoutMs ≤ now then (.timeoutErr, []) else (.outOfTrace, [])
  | now, a :: rest =>
    if lockTimeoutMs ≤ now then (.timeoutErr, [])
    else
      match a with
      | .openOk writeOk =>
        if writeOk then (.acquired, []) else (.writeErr, [])
      | .openExists (some _) true =>
        ((acquireLoop (now + lockSleepMs) rest).1,
          .slept :: (acquireLoop (now + lockSleepMs) rest).2)
      | .openExists (some _) false =>
        ((acquireLoop now rest).1, .removedStale :: (acquireLoop now rest).2)
      | .openExists none _ =>
        ((acquireLoop (now + lockSleepMs) rest).1,
          .slept :: (acquireLoop (now + lockSleepMs) rest).2)
      | .openOtherErr =>
        ((acquireLoop (now + lockSleepMs) rest).1,
          .slept :: (acquireLoop (now + lockSleepMs) rest).2)

/-- A trace in which every attempt finds the lock held by a live process. -/
def allHeld (env : List Attempt) : Bool :=
  env.all fun a =>
    match a with
    | .openExists (some _) true => true
    | _ => false

theorem acquireLoop_allHeld_timeout :
    ∀ (env : List Attempt), allHeld env = true → ∀ now : Nat,
      lockTimeoutMs ≤ now + lockSleepMs * env.length →
      (acquireLoop now env).1 = .timeoutErr := by
  intro env
  induction env with
  | nil =>
    intro _ now hb
    simp only [List.length_nil, Nat.mul_zero, Nat.add_zero] at hb
    simp [acquireLoop, hb]
  | cons a rest ih =>
    intro hheld now hb
    unfold allHeld at hheld
    rw [List.all_cons, Bool.and_eq_true] at hheld
    obtain ⟨ha, hrest⟩ := hheld
    by_cases hnow : lockTimeoutMs ≤ now
    · cases a <;> simp [acquireLoop, hnow]
    · have hb' : lockTimeoutMs ≤ (now + lockSleepMs) + lockSleepMs * rest.length := by
        simp only [List.length_cons] at hb
        have hmul : lockSleepMs * (rest.length + 1) = lockSleepMs * rest.length + lockSleepMs := by
          ring
        omega
      match a with
      | .openExists (some pid) true =>
        simp only [acquireLoop, hnow, if_false]
        exact ih hrest (now + lockSleepMs) hb'
      | .openOk w => cases ha
      | .openExists (some pid) false => cases ha
      | .openExists none al => cases ha
      | .openOtherErr => cases ha

end Protect

/-- Claim C5: on an existing lock file, `acquireLock` (a) deletes a stale
lock (recorded process dead) and retries immediately without sleeping,
(b) sleeps 100 ms between retries while the recorded process is alive, and
(c) once the 30-second deadline has elapsed it fails with a timeout error
rather than proceeding without the lock; in particular a trace in which the
lock stays held by a live process for the whole 30 s window ends in the
timeout error. -/
theorem C5_acquireLock_stale_and_timeout :
    (∀ (now : Nat) (pid : Int) (rest : List Protect.Attempt),
      now < Protect.lockTimeoutMs →
      Protect.acquireLoop now (Protect.Attempt.openExists (some pid) false :: rest) =
        ((Protect.acquireLoop now rest).1,
          Protect.LockEv.removedStale :: (Protect.acquireLoop now rest).2)) ∧
    (∀ (now : Nat) (pid : Int) (rest : List Protect.Attempt),
      now < Protect.lockTimeoutMs →
      Protect.acquireLoop now (Protect.Attempt.openExists (some pid) true :: rest) =
        ((Protect.acquireLoop (now + Protect.lockSleepMs) rest).1,
          Protect.LockEv.slept :: (Protect.acquireLoop (now + Protect.lockSleepMs) rest).2)) ∧
    (∀ (now : Nat) (env : List Protect.Attempt),
      Protect.lockTimeoutMs ≤ now →
      Protect.acquireLoop now env = (.timeoutErr, [])) ∧
    (∀ env : List Protect.Attempt,
      Protect.allHeld env = true → 300 ≤ env.length →
      (Protect.acquireLoop 0 env).1 = .timeoutErr) := by
  refine ⟨?_, ?_, ?_, ?_⟩
  · intro now pid rest hlt
    have h : ¬ Protect.lockTimeoutMs ≤ now := by omega
    simp [Protect.acquireLoop, h]
  · intro now pid rest hlt
    have h : ¬ Protect.lockTimeoutMs ≤ now := by omega
    simp [Protect.acquireLoop, h]
  · intro now env h
    cases env with
    | nil => simp [Protect.acquireLoop, h]
    | cons a rest => cases a <;> simp [Protect.acquireLoop, h]
  · intro env hheld hlen
    refine Protect.acquireLoop_allHeld_timeout env hheld 0 ?_
    have hm : Protect.lockSleepMs * 300 ≤ Protect.lockSleepMs * env.length :=
      Nat.mul_le_mul_left _ hlen
    simp only [Protect.lockTimeoutMs, Protect.lockSleepMs] at hm ⊢
    omega

set_option maxRecDepth 4000 in
/-- Witness for C5 at concrete inputs: a stale attempt at time 0, a held
attempt at time 0, the timeout boundary at 30000 ms, and a 300-attempt
all-held trace. -/
theorem C5_acquireLock_stale_and_timeout_witness :
    (Protect.acquireLoop 0 [Protect.Attempt.openExists (some 7) false,
        Protect.Attempt.openOk true] =
      (.acquired, [Protect.LockEv.removedStale])) ∧
    (Protect.acquireLoop 0 [Protect.Attempt.openExists (some 7) true,
        Protect.Attempt.openOk true] =
      (.acquired, [Protect.LockEv.slept])) ∧
    (Protect.acquireLoop 30000 [Protect.Attempt.openOk true] = (.timeoutErr, [])) ∧
    ((Protect.acquireLoop 0
        (List.replicate 300 (Protect.Attempt.openExists (some 7) true))).1 =
      .timeoutErr) := by
  obtain ⟨h1, h2, h3, h4⟩ := C5_acquireLock_stale_and_timeout
  refine ⟨?_, ?_, ?_, ?_⟩
  · have := h1 0 7 [Protect.Attempt.openOk true] (by decide)
    rw [this]
    decide
  · have := h2 0 7 [Protect.Attempt.openOk true] (by decide)
    rw [this]
    decide
  · exact h3 30000 [Protect.Attempt.openOk true] (by decide)
  · exact h4 _ (by decide) (by decide)

/-- Claim C10 (code bug exhibit): `readLockPID` on an existing lock file with
empty content evaluates the Go slice expression `data[:len(data)-1]` with
upper bound `-1`, which is a run-time panic (`none` in the model) — so
`acquireLock` does not terminate normally on every byte content.  On a
well-formed content such as `"123\n"` it parses the process id. -/
theorem C10_readLockPID_empty_content_panics :
    Protect.readLockPID "".data = none ∧
    Protect.readLockPID "123\n".data = some (.ok 123) := by
  constructor
  · rfl
  · rfl

namespace Regex

/-! ## PatternMatcher pattern store (`internal/regex/regex.go`)

`regexp.Compile` is modelled by an arbitrary deterministic compile function
`rc : Str → Except String CPat` over an arbitrary type `CPat` of compiled
patterns; the `Processor` struct and its methods are translated field by
field.  Only the package's own constructors and methods can produce a
`Processor` value (its fields are unexported), which the `Reach` predicate
captures. -/

/-- The `regex.Processor` struct. -/
structure Proc (CPat : Type) where
  patterns : List Str
  compiled : List CPat
  dirty : Bool

/-- `regex.New`. -/
def newProc (CPat : Type) : Proc CPat := ⟨[], [], true⟩

/-- One step of `Add`'s inner loop: append `pattern` if non-empty and not
seen yet, setting the dirty flag. -/
def addOne {CPat : Type} (p : Proc CPat) (pattern : Str) : Proc CPat :=
  if pattern ≠ [] ∧ ¬ p.patterns.contains pattern then
    { p with patterns := p.patterns ++ [pattern], dirty := true }
  else p

/-- `Add(patterns...)`: deduplicating append.  The Go loop keeps a `seen`
set initialised from the existing patterns and extended as it appends; that
is observationally the same as testing membership in the list built so
far, which `addOne` does. -/
def add {CPat : Type} (p : Proc CPat) (newPats : List Str) : Proc CPat :=
  newPats.foldl addOne p

/-- `compile()`: compile every pattern; the first failure aborts the whole
call and leaves `p.compiled` unassigned. -/
def compileAll {CPat : Type} (rc : Str → Except String CPat) :
    List Str → Except String (List CPat)
  | [] => .ok []
  | s :: rest =>
    match rc s with
    | .error e => .error e
    | .ok c =>
      match compileAll rc rest with
      | .error e => .error e
      | .ok cs => .ok (c :: cs)

/-- `Compiled()`: recompile when dirty, else return the memoized forms.
Returns the result together with the updated receiver. -/
def compiledFn {CPat : Type} (rc : Str → Except String CPat) (p : Proc CPat) :
    Except String (List CPat) × Proc CPat :=
  if p.dirty then
    match compileAll rc p.patterns with
    | .error e => (.error e, p)
    | .ok cs => (.ok cs, { p with compiled := cs, dirty := false })
  else (.ok p.compiled, p)

/-- States of `regex.Processor` reachable through the package's exported
surface (`New`/`NewWithPatterns`/`NewFromNewlineSeparated` are `New`
followed by `Add`; `AddNewlineSeparated` is `Add` of the parsed list). -/
inductive Reach {CPat : Type} (rc : Str → Except String CPat) : Proc CPat → Prop
  | new : Reach rc (newProc CPat)
  | add (p : Proc CPat) (l : List Str) : Reach rc p → Reach rc (add p l)
  | compiled (p : Proc CPat) : Reach rc p → Reach rc (compiledFn rc p).2

/-- Invariant: a clean (`dirty = false`) processor memoizes exactly the
compilation of its pattern list. -/
def SyncInv {CPat : Type} (rc : Str → Except String CPat) (p : Proc CPat) : Prop :=
  p.dirty = false → compileAll rc p.patterns = .ok p.compiled

theorem addOne_dirty {CPat : Type} (p : Proc CPat) (s : Str) :
    (addOne p s).dirty = true ∨ addOne p s = p := by
  unfold addOne
  split
  · exact Or.inl rfl
  · exact Or.inr rfl

theorem add_dirty {CPat : Type} (p : Proc CPat) (l : List Str) :
    (add p l).dirty = true ∨ add p l = p := by
  induction l generalizing p with
  | nil => exact Or.inr rfl
  | cons s rest ih =>
    show ((add (addOne p s) rest).dirty = true) ∨ add (addOne p s) rest = p
    rcases ih (addOne p s) with h | h
    · exact Or.inl h
    · rw [h]
      rcases addOne_dirty p s with h' | h'


      · exact Or.inl (h ▸ h')
      · exact Or.inr h'

theorem reach_syncInv {CPat : Type} (rc : Str → Except String CPat)
    (p : Proc CPat) (hr : Reach rc p) : SyncInv rc p := by
  induction hr with
  | new => intro h; cases h
  | add q l _ ihq =>
    intro hclean
    rcases add_dirty q l with h | h
    · rw [hclean] at h; cases h
    · rw [h] at hclean ⊢
      exact ihq hclean
  | compiled q _ ihq =>
    intro hclean
    unfold compiledFn at hclean ⊢
    by_cases hd : q.dirty
    · simp only [hd, if_true] at hclean ⊢
      cases hcomp : compileAll rc q.patterns with
      | error e => simp only [hcomp] at hclean; rw [hclean] at hd; cases hd
      | ok cs => simp [hcomp]
    · simp only [hd, if_false] at hclean ⊢
      exact ihq (by simpa using hd)

theorem compileAll_ok_pointwise {CPat : Type} (rc : Str → Except String CPat) :
    ∀ (pats : List Str) (cs : List CPat), compileAll rc pats = .ok cs →
      cs.length = pats.length ∧
        ∀ (i : Nat) (hp : i < pats.length) (hc : i < cs.length),
          rc (pats.get ⟨i, hp⟩) = .ok (cs.get ⟨i, hc⟩) := by
  intro pats
  induction pats with
  | nil =>
    intro cs h
    cases cs with
    | nil => exact ⟨rfl, fun i hp _ => absurd hp (by simp)⟩
    | cons c cs' => simp [compileAll] at h
  | cons s rest ih =>
    intro cs h
    unfold compileAll at h
    cases hs : rc s with
    | error e => rw [hs] at h; cases h
    | ok c =>
      rw [hs] at h
      cases hrest : compileAll rc rest with
      | error e => rw [hrest] at h; cases h
      | ok cs' =>
        rw [hrest] at h
        cases h
        obtain ⟨hlen, hpt⟩ := ih cs' hrest
        refine ⟨by simp [hlen], ?_⟩
        intro i hp hc
        cases i with
        | zero => simpa using hs
        | succ j =>
          have := hpt j (by simpa using hp) (by simpa using hc)
          simpa using this

theorem compileAll_error_of_bad {CPat : Type} (rc : Str → Except String CPat) :
    ∀ (pats : List Str) (s : Str), s ∈ pats → (∃ e, rc s = .error e) →
      ∃ e', compileAll rc pats = .error e' := by
  intro pats
  induction pats with
  | nil => intro s hs; cases hs
  | cons t rest ih =>
    intro s hs ⟨e, he⟩
    rcases List.mem_cons.mp hs with rfl | hmem
    · exact ⟨e, by simp [compileAll, he]⟩
    · cases ht : rc t with
      | error e' => exact ⟨e', by simp [compileAll, ht]⟩
      | ok c =>
        obtain ⟨e', he'⟩ := ih s hmem ⟨e, he⟩
        exact ⟨e', by simp [compileAll, ht, he']⟩

end Regex

/-- Claim C7: for every reachable pattern store, `Compiled()` is
all-or-nothing: if some pattern in the list fails to compile the call
returns an error and the stored state is unchanged (no partial set is
observable), and on success the returned compiled forms correspond
one-to-one, in order, with the pattern list at the time of the call. -/
theorem C7_compiled_all_or_nothing {CPat : Type} (rc : Str → Except String CPat)
    (p : Regex.Proc CPat) (hr : Regex.Reach rc p) :
    (∀ s ∈ p.patterns, (∃ e, rc s = .error e) →
      ∃ e', (Regex.compiledFn rc p).1 = .error e') ∧
    (∀ e, (Regex.compiledFn rc p).1 = .error e → (Regex.compiledFn rc p).2 = p) ∧
    (∀ cs, (Regex.compiledFn rc p).1 = .ok cs →
      cs.length = p.patterns.length ∧
        ∀ (i : Nat) (hp : i < p.patterns.length) (hc : i < cs.length),
          rc (p.patterns.get ⟨i, hp⟩) = .ok (cs.get ⟨i, hc⟩)) := by
  have hinv := Regex.reach_syncInv rc p hr
  refine ⟨?_, ?_, ?_⟩
  · intro s hs hbad
    unfold Regex.compiledFn
    by_cases hd : p.dirty
    · simp only [hd, if_true]
      obtain ⟨e', he'⟩ := Regex.compileAll_error_of_bad rc p.patterns s hs hbad
      exact ⟨e', by simp [he']⟩
    · have hok := hinv (by simpa using hd)
      obtain ⟨e', he'⟩ := Regex.compileAll_error_of_bad rc p.patterns s hs hbad
      rw [hok] at he'
      cases he'
  · intro e he
    unfold Regex.compiledFn at he ⊢
    by_cases hd : p.dirty
    · simp only [hd, if_true] at he ⊢
      cases hcomp : Regex.compileAll rc p.patterns with
      | error e' => simp [hcomp]
      | ok cs => rw [hcomp] at he; cases he
    · simp only [hd, if_false] at he
      cases he
  · intro cs hcs
    unfold Regex.compiledFn at hcs
    by_cases hd : p.dirty
    · simp only [hd, if_true] at hcs
      cases hcomp : Regex.compileAll rc p.patterns with
      | error e' => rw [hcomp] at hcs; cases hcs
      | ok cs' =>
        rw [hcomp] at hcs
        cases hcs
        exact Regex.compileAll_ok_pointwise rc p.patterns cs hcomp
    · simp only [hd, if_false] at hcs
      cases hcs
      exact Regex.compileAll_ok_pointwise rc p.patterns p.compiled
        (hinv (by simpa using hd))

namespace Userutil

/-! ## Identity resolution (`internal/userutil/userutil.go`) and
`runCommandAsUser` (`internal/protect/protect.go`)

The process environment and operating-system identity surface is a record:
`os.Getenv` returns the empty string for an unset variable, so environment
variables are plain strings with `[]` meaning absent. -/

/-- Identity environment: what `os/user`, the environment variables, and
the `whoami` child process would report. -/
structure UEnv where
  /-- `user.Current()`: `none` models an error, `some u` a success with
  username `u` (possibly empty). -/
  osUserCurrent : Option Str
  /-- `os.Getenv("SUDO_USER")`. -/
  sudoUser : Str
  /-- `os.Getenv("USER")`. -/
  envUSER : Str
  /-- `os.Getenv("LOGNAME")`. -/
  envLOGNAME : Str
  /-- `exec.Command("whoami").Output()`: `none` models a failure. -/
  whoami : Option Str

/-- `GetCurrentUser`: fallback chain ending in the literal `"vscode"`;
the Go function never returns a non-nil error. -/
def getCurrentUser (env : UEnv) : Str :=
  match env.osUserCurrent with
  | some u =>
    if u ≠ [] then u
    else if env.envUSER ≠ [] then env.envUSER
    else if env.envLOGNAME ≠ [] then env.envLOGNAME
    else match env.whoami with
      | some w => if strTrim w ≠ [] then strTrim w else "vscode".data
      | none => "vscode".data
  | none =>
    if env.envUSER ≠ [] then env.envUSER
    else if env.envLOGNAME ≠ [] then env.envLOGNAME
    else match env.whoami with
      | some w => if strTrim w ≠ [] then strTrim w else "vscode".data
      | none => "vscode".data

/-- `GetRealUser`: `SUDO_USER` when set, otherwise the current user. -/
def getRealUser (env : UEnv) : Str :=
  if env.sudoUser ≠ [] then env.sudoUser else getCurrentUser env

/-- `ValidateUser`: reject exactly the superuser name. -/
def validateUser (username : Str) : Except String Unit :=
  if username = "root".data then .error "refusing to operate as root user" else .ok ()

/-- `GetValidatedRealUser`. -/
def getValidatedRealUser (env : UEnv) : Except String Str :=
  match validateUser (getRealUser env) with
  | .error e => .error e
  | .ok _ => .ok (getRealUser env)

/-- `GetValidatedCurrentUser`. -/
def getValidatedCurrentUser (env : UEnv) : Except String Str :=
  match validateUser (getCurrentUser env) with
  | .error e => .error e
  | .ok _ => .ok (getCurrentUser env)

/-- How `runCommandAsUser` dispatches a command after identity validation. -/
inductive RunOutcome where
  /-- Validation failed; the operation is aborted. -/
  | aborted (msg : String)
  /-- `bash -lc` directly as the current user (not under sudo). -/
  | ranDirectly
  /-- `sudo -u <user> bash -lc` as the original user. -/
  | ranAsUser (u : Str)
deriving DecidableEq

/-- `Processor.runCommandAsUser` from `internal/protect/protect.go`. -/
def runCommandAsUser (env : UEnv) : RunOutcome :=
  if env.sudoUser = [] then
    match getValidatedCurrentUser env with
    | .error e => .aborted e
    | .ok _ => .ranDirectly
  else
    match validateUser env.sudoUser with
    | .error e => .aborted ("SUDO_USER validation failed: " ++ e)
    | .ok _ => .ranAsUser env.sudoUser

end Userutil

/-- Claim C6 as stated is false on the code: when the identifying
environment variable (`SUDO_USER`) is absent, the gateway does not fail —
`GetRealUser` falls back to the current-user chain and `runCommandAsUser`
runs the command directly.  Concrete counterexample: `SUDO_USER` unset and
the current user `vscode`. -/
theorem C6_counterexample_absent_var_does_not_abort :
    Userutil.getValidatedRealUser
        ⟨some "vscode".data, [], [], [], none⟩ = .ok "vscode".data ∧
    Userutil.runCommandAsUser
        ⟨some "vscode".data, [], [], [], none⟩ = .ranDirectly := by
  constructor
  · rfl
  · rfl

/-- Claim C6 (amended): resolution of the original user fails with a fatal
validation error exactly when the resolved identity is the superuser
(`root`) — including when `SUDO_USER` is absent and the fallback chain
resolves to `root`; when `SUDO_USER` is absent the gateway falls back to the
current-user resolution chain instead of failing, and `runCommandAsUser`
aborts whenever the identity it would run under is `root`. -/
theorem C6_root_rejected_absent_falls_back (env : Userutil.UEnv) :
    (Userutil.getRealUser env = "root".data →
      ∃ e, Userutil.getValidatedRealUser env = .error e) ∧
    (Userutil.getRealUser env ≠ "root".data →
      Userutil.getValidatedRealUser env = .ok (Userutil.getRealUser env)) ∧
    (env.sudoUser = [] →
      Userutil.getRealUser env = Userutil.getCurrentUser env) ∧
    (env.sudoUser = [] → Userutil.getCurrentUser env = "root".data →
      ∃ e, Userutil.runCommandAsUser env = .aborted e) ∧
    (env.sudoUser ≠ [] → env.sudoUser = "root".data →
      ∃ e, Userutil.runCommandAsUser env = .aborted e) := by
  refine ⟨?_, ?_, ?_, ?_, ?_⟩
  · intro h
    refine ⟨"refusing to operate as root user", ?_⟩
    unfold Userutil.getValidatedRealUser Userutil.validateUser
    simp [h]
  · intro h
    unfold Userutil.getValidatedRealUser Userutil.validateUser
    simp [h]
  · intro h
    unfold Userutil.getRealUser
    simp [h]
  · intro hs hroot
    refine ⟨"refusing to operate as root user", ?_⟩
    unfold Userutil.runCommandAsUser Userutil.getValidatedCurrentUser
      Userutil.validateUser
    simp [hs, hroot]
  · intro hs hroot
    refine ⟨"SUDO_USER validation failed: refusing to operate as root user", ?_⟩
    unfold Userutil.runCommandAsUser Userutil.validateUser
    simp [hs, hroot]

/-- Witness for the amended C6 at concrete environments: a root
`SUDO_USER` aborts, a non-root resolution succeeds, and an absent
`SUDO_USER` with root current user aborts. -/
theorem C6_root_rejected_absent_falls_back_witness :
    (∃ e, Userutil.getValidatedRealUser
        ⟨some "vscode".data, "root".data, [], [], none⟩ = .error e) ∧
    (Userutil.getValidatedRealUser
        ⟨some "vscode".data, [], [], [], none⟩ = .ok "vscode".data) ∧
    (∃ e, Userutil.runCommandAsUser
        ⟨some "root".data, [], [], [], none⟩ = .aborted e) := by
  refine ⟨?_, ?_, ?_⟩
  · exact (C6_root_rejected_absent_falls_back
      ⟨some "vscode".data, "root".data, [], [], none⟩).1 (by decide)
  · exact (C6_root_rejected_absent_falls_back
      ⟨some "vscode".data, [], [], [], none⟩).2.1 (by decide)
  · exact (C6_root_rejected_absent_falls_back
      ⟨some "root".data, [], [], [], none⟩).2.2.2.1 rfl (by decide)

/-! ## Path manipulation (Go `path/filepath` on Unix)

`filepath.Clean` is implemented by its documented rules: collapse repeated
separators, drop `.` elements, resolve inner `..` against the preceding
element, drop `..` at the root.  `Abs`, `Dir` and `Join` are defined from
`Clean` exactly as in the Go library. -/

/-- Split a string at `/` separators (keeping empty components). -/
def splitSlash : Str → List Str
  | [] => [[]]
  | c :: rest =>
    match splitSlash rest with
    | [] => [[c]]
    | h :: t => if c = '/' then [] :: h :: t else (c :: h) :: t

/-- Join components with `/`. -/
def joinSlash : List Str → Str
  | [] => []
  | [x] => x
  | x :: rest => x ++ '/' :: joinSlash rest

/-- `filepath.IsAbs` on Unix. -/
def goIsAbs : Str → Bool
  | '/' :: _ => true
  | _ => false

/-- Resolve `..` components against a stack of already-emitted components
(`stack` is reversed); `rooted` paths drop leading `..`. -/
def cleanCompsAux (rooted : Bool) : List Str → List Str → List Str
  | stack, [] => stack.reverse
  | stack, c :: rest =>
    if c = "..".data then
      match stack with
      | [] =>
        if rooted then cleanCompsAux rooted [] rest
        else cleanCompsAux rooted [c] rest
      | top :: stack' =>
        if top = "..".data then cleanCompsAux rooted (c :: stack) rest
        else cleanCompsAux rooted stack' rest
    else cleanCompsAux rooted (c :: stack) rest

/-- `filepath.Clean` (Unix). -/
def goClean (p : Str) : Str :=
  if p = [] then ".".data
  else
    let rooted := goIsAbs p
    let comps := (splitSlash p).filter fun c =>
      decide (c ≠ []) && decide (c ≠ ".".data)
    let out := cleanCompsAux rooted [] comps
    if rooted then '/' :: joinSlash out
    else if out = [] then ".".data
    else joinSlash out

/-- `filepath.Abs`: clean an absolute path, otherwise join with the working
directory and clean. -/
def goAbs (cwd p : Str) : Str :=
  if goIsAbs p then goClean p else goClean (cwd ++ '/' :: p)

/-- `filepath.Dir`: everything up to (including) the final separator,
cleaned; `Clean ""` is `"."`, matching Go. -/
def goDir (p : Str) : Str :=
  goClean ((p.reverse.dropWhile fun c => c ≠ '/').reverse)

/-- `filepath.Join` of two elements (empty elements are skipped, result is
cleaned). -/
def goJoin (a b : Str) : Str :=
  if a = [] then goClean b
  else if b = [] then goClean a
  else goClean (a ++ '/' :: b)

namespace Protect

/-! ## PrivilegeGateway (`internal/protect/rsync.go`)

The `RsyncWrapper` validations are translated branch by branch.  The file
system is an environment record: `lstat` is `os.Lstat` (`none` = error),
`statOwner` is the composite of `os.Stat`, the `syscall.Stat_t` cast and
`user.LookupId` in `validateOwnership` (`none` = any of those failed,
`some u` = the owner's username), `statExists` is whether `os.Stat`
succeeds (used for the `.git` probe).  The one regular expression is the
literal `^/tmp/majikmate-protect-sync-stage-[a-zA-Z0-9]\x7b10,\x7d$`, whose
semantics on a whole string is spelled out directly. -/

/-- ASCII letter or digit, the character class of the staging pattern. -/
def isAlphaNumChar (c : Char) : Bool :=
  (48 ≤ c.toNat && c.toNat ≤ 57) ||
  (65 ≤ c.toNat && c.toNat ≤ 90) ||
  (97 ≤ c.toNat && c.toNat ≤ 122)

/-- The anchored staging-directory pattern: the fixed prefix
`/tmp/majikmate-protect-sync-stage-` followed by at least ten alphanumeric
characters and nothing else. -/
def stageDirPattern (s : Str) : Bool :=
  "/tmp/majikmate-protect-sync-stage-".data.isPrefixOf s &&
    (let suf := s.drop "/tmp/majikmate-protect-sync-stage-".data.length
     10 ≤ suf.length && suf.all isAlphaNumChar)

/-- What `os.Lstat` reports about an existing file. -/
structure FMeta where
  isDir : Bool
  isSymlink : Bool
deriving DecidableEq

/-- File-system and process environment seen by `SyncDirectory`. -/
structure SyncEnv where
  cwd : Str
  realUser : Str
  lstat : Str → Option FMeta
  statOwner : Str → Option Str
  statExists : Str → Bool

/-- `validateOwnership`. -/
def validateOwnership (env : SyncEnv) (path : Str) : Except String Unit :=
  match env.statOwner path with
  | none => .error "cannot determine ownership"
  | some owner =>
    if owner = env.realUser then .ok ()
    else .error "path is owned by another user"

/-- `validateSourcePath`. -/
def validateSourcePath (env : SyncEnv) (p : Str) : Except String Unit :=
  if ¬ stageDirPattern p then .error "invalid source directory pattern"
  else
    match env.lstat p with
    | none => .error "cannot access source directory"
    | some info =>
      if ¬ info.isDir then .error "source must be a directory"
      else if info.isSymlink then .error "source must be a real directory, not a symlink"
      else
        match validateOwnership env p with
        | .error e => .error ("source ownership validation failed: " ++ e)
        | .ok _ => .ok ()

/-- The system-directory deny list of `validateDestinationPath`. -/
def systemPathsList : List Str :=
  ["/etc/", "/usr/", "/bin/", "/sbin/", "/boot/", "/sys/", "/proc/", "/dev/"].map
    String.data

/-- `validateDestinationPath`. -/
def validateDestinationPath (env : SyncEnv) (p : Str) : Except String Unit :=
  match env.lstat p with
  | none => .error "cannot access destination directory"
  | some info =>
    if ¬ info.isDir then .error "destination must be a directory"
    else if info.isSymlink then .error "destination must be a real directory, not a symlink"
    else if ¬ env.statExists (goJoin p ".git".data) then .error "destination is not a git repository"
    else if systemPathsList.any (fun sp => sp.isPrefixOf p) then .error "cannot sync to system directories"
    else if ¬ "/workspaces/".data.isPrefixOf p then .error "destination must be under /workspaces directory"
    else
      match validateOwnership env (goDir p) with
      | .error e => .error ("destination parent ownership validation failed: " ++ e)
      | .ok _ => .ok ()

/-- Result of `SyncDirectory`: either some validation error before the
privileged action, or the privileged `rsync` child process actually runs on
the two resolved paths. -/
inductive SyncOutcome where
  | validationFailed (msg : String)
  | rsyncRun (source dest : Str)
deriving DecidableEq

/-- `SyncDirectory`, up to (and excluding) the outcome of the privileged
`rsync` child process itself. -/
def syncDirectory (env : SyncEnv) (source dest : Str) : SyncOutcome :=
  if source = [] ∨ dest = [] then
    .validationFailed "source and destination paths are required"
  else
    match validateSourcePath env (goAbs env.cwd source) with
    | .error e => .validationFailed ("source validation failed: " ++ e)
    | .ok _ =>
      match validateDestinationPath env (goAbs env.cwd dest) with
      | .error e => .validationFailed ("destination validation failed: " ++ e)
      | .ok _ =>
        if ¬ (source.getLast? = some '/') then
          .validationFailed "source must end with trailing slash"
        else .rsyncRun (goAbs env.cwd source) (goAbs env.cwd dest)

theorem validateSourcePath_ok (env : SyncEnv) (p : Str)
    (h : validateSourcePath env p = .ok ()) :
    stageDirPattern p = true ∧
      (∃ m, env.lstat p = some m ∧ m.isDir = true ∧ m.isSymlink = false) := by
  unfold validateSourcePath at h
  by_cases h1 : stageDirPattern p = true
  · refine ⟨h1, ?_⟩
    cases hl : env.lstat p with
    | none => simp [h1, hl] at h
    | some m =>
      by_cases h2 : m.isDir = true
      · by_cases h3 : m.isSymlink = true
        · simp [h1, hl, h2, h3] at h
        · exact ⟨m, rfl, h2, by simpa using h3⟩
      · simp [h1, hl, h2] at h
  · simp [h1] at h

theorem validateDestinationPath_ok (env : SyncEnv) (p : Str)
    (h : validateDestinationPath env p = .ok ()) :
    "/workspaces/".data.isPrefixOf p = true ∧
      (∀ u, env.statOwner (goDir p) = some u → u = env.realUser) := by
  unfold validateDestinationPath at h
  cases hl : env.lstat p with
  | none => simp [hl] at h
  | some m =>
    by_cases h2 : m.isDir = true
    swap
    · simp [hl, h2] at h
    by_cases h3 : m.isSymlink = true
    · simp [hl, h2, h3] at h
    by_cases h4 : env.statExists (goJoin p ".git".data) = true
    swap
    · simp [hl, h2, h3, h4] at h
    by_cases h5 : (systemPathsList.any fun sp => sp.isPrefixOf p) = true
    · simp [hl, h2, h3, h4, h5] at h
    by_cases h6 : "/workspaces/".data.isPrefixOf p = true
    swap
    · simp [hl, h2, h3, h4, h5, h6] at h
    refine ⟨h6, ?_⟩
    intro u hu
    by_cases h7 : u = env.realUser
    · exact h7
    · simp only [hl, h2, h3, h4, h5, h6] at h
      unfold validateOwnership at h
      simp [hu, h7] at h

theorem syncDirectory_run_implies (env : SyncEnv) (source dest s d : Str)
    (h : syncDirectory env source dest = .rsyncRun s d) :
    stageDirPattern (goAbs env.cwd source) = true ∧
      (∃ m, env.lstat (goAbs env.cwd source) = some m ∧
        m.isDir = true ∧ m.isSymlink = false) ∧
      "/workspaces/".data.isPrefixOf (goAbs env.cwd dest) = true ∧
      (∀ u, env.statOwner (goDir (goAbs env.cwd dest)) = some u →
        u = env.realUser) := by
  unfold syncDirectory at h
  by_cases h0 : source = [] ∨ dest = []
  · rw [if_pos h0] at h; cases h
  · rw [if_neg h0] at h
    cases hs : validateSourcePath env (goAbs env.cwd source) with
    | error e => rw [hs] at h; cases h
    | ok u =>
      cases u
      rw [hs] at h
      cases hd : validateDestinationPath env (goAbs env.cwd dest) with
      | error e => rw [hd] at h; cases h
      | ok u =>
        cases u
        obtain ⟨hp, hm⟩ := validateSourcePath_ok env _ hs
        obtain ⟨hw, ho⟩ := validateDestinationPath_ok env _ hd
        exact ⟨hp, hm, hw, ho⟩

/-! ## ProtectionOrchestrator (`internal/protect/protect.go`, `ProtectPaths`)

The orchestrator shells out for every effect; a `PEnv` record holds the
outcome each external interaction would produce, and `protectPaths`
translates the Go control flow over it, emitting a step trace (`PStep`) so
the theorems can talk about which phases executed and whether directories
were cleaned up.  Go `defer` statements run in LIFO order at every return;
they are translated by appending the corresponding steps at each exit. -/

/-- Outcomes of the external interactions of one `ProtectPaths` run. -/
structure PEnv where
  /-- `acquireLock`. -/
  lockOutcome : Except String Unit
  /-- `findProtectedPaths`: the matched relative paths. -/
  findOutcome : Except String (List Str)
  /-- Output of `git ls-files -u -- <paths>`. -/
  unmergedOutcome : Except String Str
  /-- `os.MkdirTemp("", stagePrefix)`: the created staging directory. -/
  mkdirTempOutcome : Except String Str
  /-- The `git read-tree` / `checkout-index` snapshot command. -/
  snapCmdOutcome : Except String Str
  /-- `setPermissions` (the `chmod -R` run as the original user). -/
  permOutcome : Except String Str
  /-- `findGithookRsyncBinary`. -/
  findBinaryOutcome : Except String Str
  /-- The `githook-rsync` child process. -/
  rsyncChildOutcome : Except String Unit
  /-- The `git update-index --skip-worktree` command. -/
  skipCmdOutcome : Except String Str

/-- Steps observable in a `ProtectPaths` run. -/
inductive PStep where
  | lockAcquired
  | conflictCheckRun
  | stageDirCreated (d : Str)
  | snapshotCmdRun
  | permSetRun
  | mirrorRun
  | skipFlagsRun
  | stageDirRemoved (d : Str)
  | lockReleased
deriving DecidableEq

/-- `Processor.checkUnmergedEntries` composed with
`git.Operations.CheckUnmergedEntries`. -/
def checkUnmergedEntries (env : PEnv) (paths : List Str) :
    Except String Unit × List PStep :=
  if paths = [] then (.ok (), [])
  else
    match env.unmergedOutcome with
    | .error e => (.error ("failed to check for unmerged entries: " ++ e),
        [.conflictCheckRun])
    | .ok out =>
      if strTrim out ≠ [] then
        (.error "conflicts found in protected paths - resolve first",
          [.conflictCheckRun])
      else (.ok (), [.conflictCheckRun])

/-- The deferred staging cleanup of `buildSnapshotFromHEAD`:
`defer func() { if err != nil { os.RemoveAll(stageDir) } }()`.
The closure captures the `err` variable of the `os.MkdirTemp` statement;
the later failure returns assign fresh `err` variables scoped to their
`if` statements (`if err := ...; err != nil`), so the captured variable
still holds `nil` at every exit past the MkdirTemp check and the removal
never fires there.  `outerErrSet` is whether the captured variable holds a
non-nil error at the exit. -/
def deferredStageCleanup (outerErrSet : Bool) (stageDir : Str) : List PStep :=
  if outerErrSet then [.stageDirRemoved stageDir] else []

/-- `Processor.buildSnapshotFromHEAD`. -/
def buildSnapshotFromHEAD (env : PEnv) (paths : List Str) :
    Except String Str × List PStep :=
  match env.mkdirTempOutcome with
  | .error e => (.error ("failed to create staging directory: " ++ e), [])
  | .ok stageDir =>
    if paths = [] then
      (.ok stageDir, [.stageDirCreated stageDir] ++ deferredStageCleanup false stageDir)
    else
      match env.snapCmdOutcome with
      | .error e =>
        (.error ("failed to build snapshot from HEAD: " ++ e),
          [.stageDirCreated stageDir, .snapshotCmdRun] ++
            deferredStageCleanup false stageDir)
      | .ok _ =>
        match env.permOutcome with
        | .error e =>
          (.error ("failed to set permissions in staging area: " ++ e),
            [.stageDirCreated stageDir, .snapshotCmdRun, .permSetRun] ++
              deferredStageCleanup false stageDir)
        | .ok _ =>
          (.ok stageDir,
            [.stageDirCreated stageDir, .snapshotCmdRun, .permSetRun] ++
              deferredStageCleanup false stageDir)

/-- `Processor.mirrorToWorkingTree`. -/
def mirrorToWorkingTree (env : PEnv) (paths : List Str) :
    Except String Unit × List PStep :=
  if paths = [] then (.ok (), [])
  else
    match env.findBinaryOutcome with
    | .error e => (.error ("failed to find githook-rsync binary: " ++ e), [])
    | .ok _ =>
      match env.rsyncChildOutcome with
      | .error e => (.error ("atomic rsync failed: " ++ e), [.mirrorRun])
      | .ok _ => (.ok (), [.mirrorRun])

/-- `Processor.applySkipWorktreeFlags`. -/
def applySkipWorktreeFlags (env : PEnv) (paths : List Str) :
    Except String Unit × List PStep :=
  if paths = [] then (.ok (), [])
  else
    match env.skipCmdOutcome with
    | .error e => (.error e, [.skipFlagsRun])
    | .ok _ => (.ok (), [.skipFlagsRun])

/-- `Processor.ProtectPaths`: lock → find → conflict gate → snapshot →
mirror → skip-worktree, with the two deferred cleanups (`lock.Release()`
and `os.RemoveAll(stageDir)`, the latter only installed once
`buildSnapshotFromHEAD` has returned without error). -/
def protectPaths (env : PEnv) : Except String Unit × List PStep :=
  match env.lockOutcome with
  | .error e => (.error ("failed to acquire protect-paths lock: " ++ e), [])
  | .ok _ =>
    match env.findOutcome with
    | .error e => (.error e, [.lockAcquired, .lockReleased])
    | .ok paths =>
      if paths = [] then (.ok (), [.lockAcquired, .lockReleased])
      else
        match checkUnmergedEntries env paths with
        | (.error e, evs) => (.error e, [PStep.lockAcquired] ++ evs ++ [.lockReleased])
        | (.ok _, evs) =>
          match buildSnapshotFromHEAD env paths with
          | (.error e, evs2) =>
            (.error e, [PStep.lockAcquired] ++ evs ++ evs2 ++ [.lockReleased])
          | (.ok stageDir, evs2) =>
            match mirrorToWorkingTree env paths with
            | (.error e, evs3) =>
              (.error e, [PStep.lockAcquired] ++ evs ++ evs2 ++ evs3 ++
                [.stageDirRemoved stageDir, .lockReleased])
            | (.ok _, evs3) =>
              match applySkipWorktreeFlags env paths with
              | (.error e, evs4) =>
                (.error e, [PStep.lockAcquired] ++ evs ++ evs2 ++ evs3 ++ evs4 ++
                  [.stageDirRemoved stageDir, .lockReleased])
              | (.ok _, evs4) =>
                (.ok (), [PStep.lockAcquired] ++ evs ++ evs2 ++ evs3 ++ evs4 ++
                  [.stageDirRemoved stageDir, .lockReleased])

end Protect

/-- Claim C3: if the unmerged-entries check reports at least one unmerged
index entry under a matched protected path (non-empty `ls-files -u`
output), `ProtectPaths` returns the conflict error and neither the
snapshot construction, nor the mirror sync, nor the skip-worktree step
executes in that run — no staging directory is even created. -/
theorem C3_conflict_gate_blocks_run (env : Protect.PEnv) (paths : List Str)
    (out : Str)
    (hlock : env.lockOutcome = .ok ())
    (hfind : env.findOutcome = .ok paths)
    (hne : paths ≠ [])
    (hout : env.unmergedOutcome = .ok out)
    (hconf : strTrim out ≠ []) :
    (Protect.protectPaths env).1 =
        .error "conflicts found in protected paths - resolve first" ∧
      (∀ d, Protect.PStep.stageDirCreated d ∉ (Protect.protectPaths env).2) ∧
      Protect.PStep.snapshotCmdRun ∉ (Protect.protectPaths env).2 ∧
      Protect.PStep.mirrorRun ∉ (Protect.protectPaths env).2 ∧
      Protect.PStep.skipFlagsRun ∉ (Protect.protectPaths env).2 := by
  have hres : Protect.protectPaths env =
      (.error "conflicts found in protected paths - resolve first",
        [Protect.PStep.lockAcquired, Protect.PStep.conflictCheckRun,
          Protect.PStep.lockReleased]) := by
    unfold Protect.protectPaths Protect.checkUnmergedEntries
    rw [hlock, hfind, hout]
    simp [hne, hconf]
  rw [hres]
  refine ⟨rfl, ?_, ?_, ?_, ?_⟩
  · intro d; simp
  · simp
  · simp
  · simp

/-- Witness for C3 at a concrete environment: one matched path and a
non-empty `ls-files -u` report. -/
theorem C3_conflict_gate_blocks_run_witness :
    (Protect.protectPaths
        ⟨.ok (), .ok ["tutorials".data], .ok "100644 abc 1\ttutorials/a.md".data,
          .ok "/tmp/majikmate-protect-sync-stage-aaaaaaaaaa".data, .ok [], .ok [],
          .ok [], .ok (), .ok []⟩).1 =
      .error "conflicts found in protected paths - resolve first" ∧
    Protect.PStep.snapshotCmdRun ∉
      (Protect.protectPaths
        ⟨.ok (), .ok ["tutorials".data], .ok "100644 abc 1\ttutorials/a.md".data,
          .ok "/tmp/majikmate-protect-sync-stage-aaaaaaaaaa".data, .ok [], .ok [],
          .ok [], .ok (), .ok []⟩).2 := by
  have h := C3_conflict_gate_blocks_run
    ⟨.ok (), .ok ["tutorials".data], .ok "100644 abc 1\ttutorials/a.md".data,
      .ok "/tmp/majikmate-protect-sync-stage-aaaaaaaaaa".data, .ok [], .ok [],
      .ok [], .ok (), .ok []⟩
    ["tutorials".data] "100644 abc 1\ttutorials/a.md".data
    rfl rfl (by decide) rfl (by decide)
  exact ⟨h.1, h.2.2.1⟩

/-- Claim C2 (code bug exhibit): when the git snapshot command fails after
the staging directory was created, `ProtectPaths` returns the error but the
staging directory is never removed: the deferred cleanup in
`buildSnapshotFromHEAD` tests the outer `err` variable, which the inner
`if err := ...` statements shadow, so it stays `nil` and the removal never
fires, and `ProtectPaths` installs its own `defer os.RemoveAll(stageDir)`
only after the error return.  The run is evaluated at that failing
environment. -/
theorem C2_staging_dir_leaks_on_snapshot_failure :
    (Protect.protectPaths
        ⟨.ok (), .ok ["tutorials".data], .ok [],
          .ok "/tmp/majikmate-protect-sync-stage-aaaaaaaaaa".data,
          .error "git read-tree failed", .ok [], .ok [], .ok (), .ok []⟩).1 =
      .error "failed to build snapshot from HEAD: git read-tree failed" ∧
    Protect.PStep.stageDirCreated "/tmp/majikmate-protect-sync-stage-aaaaaaaaaa".data ∈
      (Protect.protectPaths
        ⟨.ok (), .ok ["tutorials".data], .ok [],
          .ok "/tmp/majikmate-protect-sync-stage-aaaaaaaaaa".data,
          .error "git read-tree failed", .ok [], .ok [], .ok (), .ok []⟩).2 ∧
    (∀ d, Protect.PStep.stageDirRemoved d ∉
      (Protect.protectPaths
        ⟨.ok (), .ok ["tutorials".data], .ok [],
          .ok "/tmp/majikmate-protect-sync-stage-aaaaaaaaaa".data,
          .error "git read-tree failed", .ok [], .ok [], .ok (), .ok []⟩).2) := by
  refine ⟨rfl, by decide, ?_⟩
  intro d
  show Protect.PStep.stageDirRemoved d ∉
    [Protect.PStep.lockAcquired, Protect.PStep.conflictCheckRun,
      Protect.PStep.stageDirCreated "/tmp/majikmate-protect-sync-stage-aaaaaaaaaa".data,
      Protect.PStep.snapshotCmdRun, Protect.PStep.lockReleased]
  simp

/-- Claim C1: whenever the resolved source path does not match the fixed
`/tmp` staging pattern, or the source is a symlink, or the resolved
destination is not under the `/workspaces` mount root, or the destination's
parent directory is owned by a user other than the validated real user,
`SyncDirectory` returns a validation error and the privileged `rsync`
command never executes. -/
theorem C1_syncDirectory_validation_blocks_rsync
    (env : Protect.SyncEnv) (source dest : Str)
    (h : ¬ Protect.stageDirPattern (goAbs env.cwd source) = true ∨
      (∃ m, env.lstat (goAbs env.cwd source) = some m ∧ m.isSymlink = true) ∨
      ¬ "/workspaces/".data.isPrefixOf (goAbs env.cwd dest) = true ∨
      (∃ u, env.statOwner (goDir (goAbs env.cwd dest)) = some u ∧
        u ≠ env.realUser)) :
    ∃ msg, Protect.syncDirectory env source dest =
      Protect.SyncOutcome.validationFailed msg := by
  cases hres : Protect.syncDirectory env source dest with
  | validationFailed msg => exact ⟨msg, rfl⟩
  | rsyncRun s d =>
    obtain ⟨hp, ⟨m, hm, hdir, hsym⟩, hw, ho⟩ :=
      Protect.syncDirectory_run_implies env source dest s d hres
    rcases h with h | ⟨m', hm', hsym'⟩ | h | ⟨u, hu, hne⟩
    · exact absurd hp h
    · rw [hm] at hm'
      cases hm'
      rw [hsym] at hsym'
      cases hsym'
    · exact absurd hw h
    · exact absurd (ho u hu) hne

/-- Witness for C1 at a concrete input: source `/tmp/evil/` (not matching
the staging pattern) and destination `/etc/target` (outside
`/workspaces`), on a file system that reports nothing. -/
theorem C1_syncDirectory_validation_blocks_rsync_witness :
    (¬ Protect.stageDirPattern (goAbs "/".data "/tmp/evil/".data) = true) ∧
    (∃ msg, Protect.syncDirectory
        ⟨"/".data, "vscode".data, fun _ => none, fun _ => none, fun _ => false⟩
        "/tmp/evil/".data "/etc/target".data =
      Protect.SyncOutcome.validationFailed msg) := by
  refine ⟨by decide, ?_⟩
  exact C1_syncDirectory_validation_blocks_rsync
    ⟨"/".data, "vscode".data, fun _ => none, fun _ => none, fun _ => false⟩
    "/tmp/evil/".data "/etc/target".data (Or.inl (by decide))

/-- Fixed compile function for the C7 witness: `"bad"` fails, everything
else compiles to its length. -/
def rcW : Str → Except String Nat :=
  fun s => if s = "bad".data then .error "compile error" else .ok s.length

/-- Witness store holding one uncompilable pattern. -/
def pBadW : Regex.Proc Nat := Regex.add (Regex.newProc Nat) ["ab".data, "bad".data]

/-- Witness store holding only compilable patterns. -/
def pGoodW : Regex.Proc Nat := Regex.add (Regex.newProc Nat) ["ab".data, "cde".data]

/-- Witness for C7: on a concrete store with an uncompilable pattern,
`Compiled()` errors and leaves the store unchanged; on an all-good store
the result corresponds index-wise to the patterns. -/
theorem C7_compiled_all_or_nothing_witness :
    (∃ e', (Regex.compiledFn rcW pBadW).1 = .error e') ∧
    ((Regex.compiledFn rcW pBadW).2 = pBadW) ∧
    ((Regex.compiledFn rcW pGoodW).1 = .ok [2, 3]) := by
  have hbad := C7_compiled_all_or_nothing rcW pBadW
    (Regex.Reach.add _ _ Regex.Reach.new)
  obtain ⟨h1, h2, _⟩ := hbad
  have herr : ∃ e', (Regex.compiledFn rcW pBadW).1 = .error e' :=
    h1 "bad".data (by decide) ⟨"compile error", by rfl⟩
  refine ⟨herr, ?_, ?_⟩
  · obtain ⟨e', he'⟩ := herr
    exact h2 e' he'
  · rfl

namespace Paths

/-! ## PatternMatcher walk (`internal/paths/paths.go`, `FindWithOptions`)

A directory tree is a `Node`: files carry content, permission bits and an
owner; directories carry their children as a `Forest` (name/subtree pairs).
`filepath.Walk` visits the root, then every entry in pre-order;
`FindWithOptions`'s callback prunes dot-named entries (`SkipDir` for
directories, skip for files), never prunes the root itself, filters by
entry type, matches the slash-joined relative path against the compiled
patterns (first match wins, which is `List.any`), and the collected matches
are finally sorted by absolute path (`sort.Slice` with `<` on strings,
modelled by an insertion sort with the same ordering).  A compiled pattern
is modelled by its `MatchString` function `Str → Bool`. -/

/-- A path component. -/
abbrev Seg := Str

/-- A repository-relative path as components. -/
abbrev RPath := List Seg

mutual
/-- A file-system subtree. -/
inductive Node where
  | file (content : Str) (perm : Nat) (owner : Str)
  | dir (perm : Nat) (owner : Str) (children : Forest)

/-- Named children of a directory, in directory order. -/
inductive Forest where
  | nil
  | cons (name : Seg) (child : Node) (rest : Forest)
end

/-- Whether a node is a directory (`os.FileInfo.IsDir`). -/
def Node.isDirNode : Node → Bool
  | .file _ _ _ => false
  | .dir _ _ _ => true

/-- `strings.HasPrefix(baseName, ".")`. -/
def dotSeg : Seg → Bool
  | '.' :: _ => true
  | _ => false

/-- No component of the path is dot-named. -/
def noDotPath (p : RPath) : Bool := p.all fun s => ! dotSeg s

mutual
/-- The entries `filepath.Walk` hands to the callback that survive the
callback's pruning of dot-named entries, with their relative paths and
`IsDir` flags; the root itself (relative path `[]`) is excluded, as the
callback skips it. -/
def walkEntries : Node → List (RPath × Bool)
  | .file _ _ _ => []
  | .dir _ _ cs => walkForest cs

/-- Walk a forest of children. -/
def walkForest : Forest → List (RPath × Bool)
  | .nil => []
  | .cons s c rest =>
    (if dotSeg s then []
     else ([s], c.isDirNode) :: (walkEntries c).map fun e => (s :: e.1, e.2)) ++
      walkForest rest
end

mutual
/-- All node paths of a tree (no pruning), excluding the root. -/
def nodePaths : Node → List RPath
  | .file _ _ _ => []
  | .dir _ _ cs => nodePathsForest cs

/-- Node paths contributed by a forest. -/
def nodePathsForest : Forest → List RPath
  | .nil => []
  | .cons s c rest =>
    ([s] :: (nodePaths c).map fun p => s :: p) ++ nodePathsForest rest
end

mutual
/-- The relative paths of all files in a tree (`[]` if the root itself is
a file). -/
def filePathsNode : Node → List RPath
  | .file _ _ _ => [[]]
  | .dir _ _ cs => filePathsForest cs

/-- File paths contributed by a forest. -/
def filePathsForest : Forest → List RPath
  | .nil => []
  | .cons s c rest => ((filePathsNode c).map fun p => s :: p) ++ filePathsForest rest
end

/-- Insertion into a sorted list (the model of Go's `sort.Slice` result). -/
def insertLe {α : Type} (le : α → α → Bool) (x : α) : List α → List α
  | [] => [x]
  | y :: ys => if le x y then x :: y :: ys else y :: insertLe le x ys

/-- Insertion sort with comparator `le`. -/
def sortLe {α : Type} (le : α → α → Bool) : List α → List α
  | [] => []
  | x :: xs => insertLe le x (sortLe le xs)

theorem mem_insertLe {α : Type} (le : α → α → Bool) (x y : α) :
    ∀ l : List α, (y ∈ insertLe le x l ↔ y = x ∨ y ∈ l) := by
  intro l
  induction l with
  | nil => simp [insertLe]
  | cons z zs ih =>
    unfold insertLe
    by_cases h : le x z = true
    · simp [h]
    · rw [if_neg h]
      simp only [List.mem_cons, ih]
      tauto

theorem pairwise_insertLe {α : Type} (le : α → α → Bool)
    (htrans : ∀ a b c, le a b = true → le b c = true → le a c = true)
    (htotal : ∀ a b, (le a b || le b a) = true) (x : α) :
    ∀ l : List α, l.Pairwise (fun a b => le a b = true) →
      (insertLe le x l).Pairwise (fun a b => le a b = true) := by
  intro l
  induction l with
  | nil => intro _; simp [insertLe]
  | cons y ys ih =>
    intro hp
    rw [List.pairwise_cons] at hp
    obtain ⟨hy, hys⟩ := hp
    unfold insertLe
    by_cases hxy : le x y = true
    · rw [if_pos hxy]
      refine List.Pairwise.cons ?_ (List.Pairwise.cons hy hys)
      intro z hz
      rcases List.mem_cons.mp hz with rfl | hz'
      · exact hxy
      · exact htrans x y z hxy (hy z hz')
    · rw [if_neg hxy]
      have hyx : le y x = true := by
        have htot := htotal x y
        rcases Bool.or_eq_true_iff.mp htot with h | h
        · exact absurd h hxy
        · exact h
      refine List.Pairwise.cons ?_ (ih hys)
      intro z hz
      rcases (mem_insertLe le x z ys).mp hz with rfl | hz'
      · exact hyx
      · exact hy z hz'

theorem pairwise_sortLe {α : Type} (le : α → α → Bool)
    (htrans : ∀ a b c, le a b = true → le b c = true → le a c = true)
    (htotal : ∀ a b, (le a b || le b a) = true) :
    ∀ l : List α, (sortLe le l).Pairwise (fun a b => le a b = true) := by
  intro l
  induction l with
  | nil => exact List.Pairwise.nil
  | cons x xs ih => exact pairwise_insertLe le htrans htotal x (sortLe le xs) ih

theorem mem_sortLe {α : Type} (le : α → α → Bool) (y : α) :
    ∀ l : List α, (y ∈ sortLe le l ↔ y ∈ l) := by
  intro l
  induction l with
  | nil => simp [sortLe]
  | cons x xs ih =>
    unfold sortLe
    rw [mem_insertLe, ih, List.mem_cons]

/-- `FindOptions` (the two logging fields do not influence the result). -/
structure FindOpts where
  includeFiles : Bool
  includeDirs : Bool
deriving DecidableEq

/-- The defaulting at the top of `FindWithOptions`: both-false means
both-true. -/
def effOpts (o : FindOpts) : FindOpts :=
  if ¬ o.includeFiles ∧ ¬ o.includeDirs then ⟨true, true⟩ else o

/-- One matched path: absolute and repository-relative form
(`paths.Info`). -/
structure Matched where
  abs : Str
  rel : RPath
deriving DecidableEq

/-- Absolute path of an entry: root plus slash-joined relative path, as
`filepath.Walk` builds it. -/
def absOf (root : Str) (rel : RPath) : Str := root ++ '/' :: joinSlash rel

/-- `FindWithOptions`: walk, prune, type-filter, match (first pattern
wins), sort by absolute path. -/
def findWithOptions (root : Str) (pats : List (Str → Bool)) (t : Node)
    (o : FindOpts) : List Matched :=
  sortLe (fun a b => strLe a.abs b.abs)
    ((walkEntries t).filterMap fun e =>
      if e.2 && ! (effOpts o).includeDirs then none
      else if ! e.2 && ! (effOpts o).includeFiles then none
      else if pats.any fun pat => pat (joinSlash e.1) then
        some ⟨absOf root e.1, e.1⟩
      else none)

end Paths

namespace Paths

mutual
theorem walkEntries_noDot (n : Node) :
    ∀ e ∈ walkEntries n, noDotPath e.1 = true := by
  cases n with
  | file c p o => intro e he; cases he
  | dir p o cs => intro e he; exact walkForest_noDot cs e he

theorem walkForest_noDot (f : Forest) :
    ∀ e ∈ walkForest f, noDotPath e.1 = true := by
  cases f with
  | nil => intro e he; cases he
  | cons s c rest =>
    intro e he
    unfold walkForest at he
    rcases List.mem_append.mp he with h1 | h2
    · by_cases hd : dotSeg s = true
      · rw [if_pos hd] at h1; cases h1
      · rw [if_neg hd] at h1
        rcases List.mem_cons.mp h1 with rfl | h3
        · simp [noDotPath, hd]
        · obtain ⟨e', he', heq⟩ := List.mem_map.mp h3
          have hrec := walkEntries_noDot c e' he'
          subst heq
          simp only [noDotPath, List.all_cons, Bool.and_eq_true] at hrec ⊢
          exact ⟨by simp [hd], hrec⟩
    · exact walkForest_noDot rest e h2
end

theorem mem_findWithOptions_imp (root : Str) (pats : List (Str → Bool))
    (t : Node) (o : FindOpts) (m : Matched)
    (h : m ∈ findWithOptions root pats t o) :
    ∃ b, (m.rel, b) ∈ walkEntries t ∧ m.abs = absOf root m.rel ∧
      (pats.any fun pat => pat (joinSlash m.rel)) = true := by
  unfold findWithOptions at h
  rw [mem_sortLe] at h
  obtain ⟨e, he, hfe⟩ := List.mem_filterMap.mp h
  by_cases h1 : (e.2 && ! (effOpts o).includeDirs) = true
  · rw [if_pos h1] at hfe; cases hfe
  · rw [if_neg h1] at hfe
    by_cases h2 : (! e.2 && ! (effOpts o).includeFiles) = true
    · rw [if_pos h2] at hfe; cases hfe
    · rw [if_neg h2] at hfe
      by_cases h3 : (pats.any fun pat => pat (joinSlash e.1)) = true
      · rw [if_pos h3] at hfe
        cases hfe
        exact ⟨e.2, by simpa using he, rfl, h3⟩
      · rw [if_neg h3] at hfe; cases hfe

theorem mem_findWithOptions_intro (root : Str) (pats : List (Str → Bool))
    (t : Node) (p : RPath) (b : Bool)
    (hw : (p, b) ∈ walkEntries t)
    (hm : (pats.any fun pat => pat (joinSlash p)) = true) :
    (⟨absOf root p, p⟩ : Matched) ∈ findWithOptions root pats t ⟨true, true⟩ := by
  unfold findWithOptions
  rw [mem_sortLe]
  refine List.mem_filterMap.mpr ⟨(p, b), hw, ?_⟩
  simp [effOpts, hm]

end Paths

/-- Claim C8: the collection of matched paths returned by
`FindWithOptions` is deterministically ordered — the code sorts it by
absolute path with string `<`, so the returned list is sorted
lexicographically by absolute path (and, the function being a pure
function of the tree and the patterns, two passes over the same tree with
the same patterns return the matched paths in the same order). -/
theorem C8_findWithOptions_sorted_by_abs (root : Str)
    (pats : List (Str → Bool)) (t : Paths.Node) (o : Paths.FindOpts) :
    (Paths.findWithOptions root pats t o).Pairwise
      (fun a b => strLe a.abs b.abs = true) := by
  exact Paths.pairwise_sortLe _
    (fun a b c hab hbc => strLe_trans a.abs b.abs c.abs hab hbc)
    (fun a b => strLe_total a.abs b.abs) _

/-- Claim C9: during the walk of `FindWithOptions` every dot-named entry
is skipped entirely — dot-named directories are pruned so none of their
descendants is visited, and no result path contains a dot-named component;
the walk root itself is exempt from the dot check (its name is never
examined, only its children's). -/
theorem C9_dot_entries_pruned :
    (∀ (root : Str) (pats : List (Str → Bool)) (t : Paths.Node)
      (o : Paths.FindOpts) (m : Paths.Matched),
      m ∈ Paths.findWithOptions root pats t o →
        Paths.noDotPath m.rel = true) ∧
    (∀ (t : Paths.Node) (e : Paths.RPath × Bool),
      e ∈ Paths.walkEntries t → Paths.noDotPath e.1 = true) := by
  constructor
  · intro root pats t o m hm
    obtain ⟨b, hw, _, _⟩ := Paths.mem_findWithOptions_imp root pats t o m hm
    exact Paths.walkEntries_noDot t (m.rel, b) hw
  · intro t e he
    exact Paths.walkEntries_noDot t e he

/-- The tree for the C9 witness: a matching plain file `a` next to a
dot-named directory `.h` that contains another file `a`. -/
def c9Tree : Paths.Node :=
  .dir 493 "u".data
    (.cons "a".data (.file "x".data 420 "u".data)
      (.cons ".h".data
        (.dir 493 "u".data (.cons "a".data (.file "y".data 420 "u".data) .nil))
        .nil))

/-- The pattern list for the C9 witness: matches both `a` and `.h/a`. -/
def c9Pats : List (Str → Bool) :=
  [fun s => decide (s = "a".data) || decide (s = ".h/a".data)]

/-- Witness for C9 at a concrete tree: the visible match `a` is in the
result and the theorem yields that its path has no dot component, while
the dot-directory's descendant `.h/a` — although it matches the pattern —
is absent from the result and from the visited entries. -/
theorem C9_dot_entries_pruned_witness :
    Paths.noDotPath (["a".data] : Paths.RPath) = true ∧
    (⟨"/r/a".data, ["a".data]⟩ : Paths.Matched) ∈
      Paths.findWithOptions "/r".data c9Pats c9Tree ⟨true, true⟩ ∧
    (⟨"/r/.h/a".data, [".h".data, "a".data]⟩ : Paths.Matched) ∉
      Paths.findWithOptions "/r".data c9Pats c9Tree ⟨true, true⟩ ∧
    ((([".h".data, "a".data] : Paths.RPath), false) ∉
      Paths.walkEntries c9Tree) := by
  refine ⟨?_, by decide, by decide, by decide⟩
  exact (C9_dot_entries_pruned).1 "/r".data c9Pats c9Tree ⟨true, true⟩
    ⟨"/r/a".data, ["a".data]⟩ (by decide)

namespace Protect

/-! ## Full protection run (`ProtectPaths` success path) for idempotence

One completed protection run, as a function of the repository state:

* `matchedOf` — `findProtectedPaths` (= `FindWithOptions` with files and
  directories both included) returning the relative matched paths that are
  passed, quoted, to the git plumbing;
* `syncNode` — the composition of `BuildSnapshotFromHEAD` (`git read-tree
  HEAD` into a temporary index, `git ls-files -- <paths>` restricted by the
  pathspecs, `git checkout-index --ignore-skip-worktree-bits`), the
  staging `chmod -R u=rwX,go=rX`, and the `rsync --archive --delete
  --chown=majikmate:majikmate --exclude=.git` mirror into the destination:
  a file of HEAD is extracted iff some matched pathspec is a prefix of its
  path (git pathspec semantics for a path argument) and — only if the
  skip-worktree bits were *not* ignored — its skip bit is unset; extracted
  files keep their content, get the normalized permission and the
  `majikmate` owner; a directory survives iff it keeps at least one file
  (git tracks no empty directories, and `--delete` removes the rest);
* `protectRun` — the whole run: when nothing matches, `ProtectPaths`
  returns before any mutation; otherwise the destination tree becomes the
  mirrored snapshot and the skip-worktree bits are set on the tracked
  (HEAD) files under the matched paths.

The version-control metadata directory `.git` is outside the modelled
tree: the walker prunes every dot-named entry anyway and the sync excludes
it in both directions. -/

/-- Git pathspec coverage for the path arguments passed to `ls-files` and
`checkout-index`: pathspec `m` matches file `f` iff `m` equals `f` or
names an ancestor directory of `f`. -/
def covers (matched : List Paths.RPath) (f : Paths.RPath) : Bool :=
  matched.any fun m => m.isPrefixOf f

/-- The dedicated protection identity (`majikmate`). -/
def mmOwner : Str := "majikmate".data

/-- `chmod -R u=rwX,go=rX` on a staged file, preserved by the archive
copy: any execute bit yields `0755`, otherwise `0644`. -/
def normFilePerm (perm : Nat) : Nat :=
  if Nat.land perm 73 ≠ 0 then 493 else 420

mutual
/-- Snapshot-and-mirror of one HEAD subtree at relative path `rel`:
`none` means nothing under it is extracted (so the mirror leaves nothing
there). -/
def syncNode (matched : List Paths.RPath) (ignoreSkip : Bool)
    (skip : List Paths.RPath) (rel : Paths.RPath) :
    Paths.Node → Option Paths.Node
  | .file c perm _ =>
    if covers matched rel && (ignoreSkip || ! skip.contains rel) then
      some (.file c (normFilePerm perm) mmOwner)
    else none
  | .dir _ _ cs =>
    match syncForest matched ignoreSkip skip rel cs with
    | .nil => none
    | .cons s c rest => some (.dir 493 mmOwner (.cons s c rest))

/-- Snapshot-and-mirror of the children of a directory at `rel`. -/
def syncForest (matched : List Paths.RPath) (ignoreSkip : Bool)
    (skip : List Paths.RPath) (rel : Paths.RPath) :
    Paths.Forest → Paths.Forest
  | .nil => .nil
  | .cons s c rest =>
    match syncNode matched ignoreSkip skip (rel ++ [s]) c with
    | none => syncForest matched ignoreSkip skip rel rest
    | some c' => .cons s c' (syncForest matched ignoreSkip skip rel rest)
end

/-- File paths of an optional subtree. -/
def filePathsOpt : Option Paths.Node → List Paths.RPath
  | none => []
  | some n => Paths.filePathsNode n

/-- Node paths of an optional subtree. -/
def nodePathsOpt : Option Paths.Node → List Paths.RPath
  | none => []
  | some n => Paths.nodePaths n

/-- Repository state for a protection run. -/
structure World where
  /-- The HEAD tree (content and mode of every tracked file). -/
  head : Paths.Node
  /-- The working tree, `.git` aside. -/
  wt : Paths.Node
  /-- The set of paths carrying the skip-worktree bit. -/
  skip : List Paths.RPath

/-- The destination root after mirroring an empty staging directory. -/
def emptyRoot : Paths.Node := .dir 493 mmOwner .nil

/-- The relative matched paths of `findProtectedPaths`. -/
def matchedOf (root : Str) (pats : List (Str → Bool)) (t : Paths.Node) :
    List Paths.RPath :=
  (Paths.findWithOptions root pats t ⟨true, true⟩).map fun m => m.rel

/-- One completed protection run. -/
def protectRun (root : Str) (pats : List (Str → Bool)) (w : World) : World :=
  if matchedOf root pats w.wt = [] then w
  else
    { head := w.head
      wt := (syncNode (matchedOf root pats w.wt) true w.skip [] w.head).getD emptyRoot
      skip := w.skip ++ (Paths.filePathsNode w.head).filter
        (covers (matchedOf root pats w.wt)) }

theorem isPrefixOf_eq_true_iff {α : Type} [BEq α] [LawfulBEq α]
    (p q : List α) : p.isPrefixOf q = true ↔ p <+: q := by
  exact List.isPrefixOf_iff_prefix

theorem prefixComparable {α : Type} {p q r : List α}
    (h1 : p <+: r) (h2 : q <+: r) : p <+: q ∨ q <+: p := by
  exact List.prefix_or_prefix_of_prefix h1 h2

theorem covers_iff (matched : List Paths.RPath) (f : Paths.RPath) :
    covers matched f = true ↔ ∃ p ∈ matched, p <+: f := by
  unfold covers
  rw [List.any_eq_true]
  constructor
  · rintro ⟨p, hp, hpre⟩
    exact ⟨p, hp, (isPrefixOf_eq_true_iff p f).mp hpre⟩
  · rintro ⟨p, hp, hpre⟩
    exact ⟨p, hp, (isPrefixOf_eq_true_iff p f).mpr hpre⟩

theorem mem_matchedOf (root : Str) (pats : List (Str → Bool))
    (t : Paths.Node) (p : Paths.RPath) :
    p ∈ matchedOf root pats t ↔
      ∃ b, (p, b) ∈ Paths.walkEntries t ∧
        (pats.any fun pat => pat (joinSlash p)) = true := by
  unfold matchedOf
  simp only [List.mem_map]
  constructor
  · rintro ⟨m, hm, rfl⟩
    obtain ⟨b, hw, _, hp⟩ :=
      Paths.mem_findWithOptions_imp root pats t ⟨true, true⟩ m hm
    exact ⟨b, hw, hp⟩
  · rintro ⟨b, hw, hp⟩
    exact ⟨⟨Paths.absOf root p, p⟩,
      Paths.mem_findWithOptions_intro root pats t p b hw hp, rfl⟩

end Protect

namespace Paths

mutual
theorem walkEntries_sub (n : Node) :
    ∀ e ∈ walkEntries n, e.1 ∈ nodePaths n := by
  cases n with
  | file c p o => intro e he; cases he
  | dir p o cs => intro e he; exact walkForest_sub cs e he

theorem walkForest_sub (f : Forest) :
    ∀ e ∈ walkForest f, e.1 ∈ nodePathsForest f := by
  cases f with
  | nil => intro e he; cases he
  | cons s c rest =>
    intro e he
    unfold walkForest at he
    unfold nodePathsForest
    rcases List.mem_append.mp he with h1 | h2
    · by_cases hd : dotSeg s = true
      · rw [if_pos hd] at h1; cases h1
      · rw [if_neg hd] at h1
        rcases List.mem_cons.mp h1 with rfl | h3
        · exact List.mem_append_left _ (List.mem_cons_self _ _)
        · obtain ⟨e', he', heq⟩ := List.mem_map.mp h3
          have hrec := walkEntries_sub c e' he'
          subst heq
          exact List.mem_append_left _
            (List.mem_cons_of_mem _ (List.mem_map_of_mem _ hrec))
    · exact List.mem_append_right _ (walkForest_sub rest e h2)
end

mutual
theorem nodePaths_ne_nil (n : Node) : ∀ q ∈ nodePaths n, q ≠ [] := by
  cases n with
  | file c p o => intro q hq; cases hq
  | dir p o cs => intro q hq; exact nodePathsForest_ne_nil cs q hq

theorem nodePathsForest_ne_nil (f : Forest) :
    ∀ q ∈ nodePathsForest f, q ≠ [] := by
  cases f with
  | nil => intro q hq; cases hq
  | cons s c rest =>
    intro q hq
    unfold nodePathsForest at hq
    rcases List.mem_append.mp hq with h1 | h2
    · rcases List.mem_cons.mp h1 with rfl | h3
      · simp
      · obtain ⟨q', _, heq⟩ := List.mem_map.mp h3
        subst heq
        simp
    · exact nodePathsForest_ne_nil rest q h2
end

mutual
theorem nodePaths_walk (n : Node) :
    ∀ q ∈ nodePaths n, noDotPath q = true → ∃ b, (q, b) ∈ walkEntries n := by
  cases n with
  | file c p o => intro q hq; cases hq
  | dir p o cs => intro q hq hnd; exact nodePathsForest_walk cs q hq hnd

theorem nodePathsForest_walk (f : Forest) :
    ∀ q ∈ nodePathsForest f, noDotPath q = true → ∃ b, (q, b) ∈ walkForest f := by
  cases f with
  | nil => intro q hq; cases hq
  | cons s c rest =>
    intro q hq hnd
    unfold nodePathsForest at hq
    unfold walkForest
    rcases List.mem_append.mp hq with h1 | h2
    · have hd : dotSeg s = false := by
        rcases List.mem_cons.mp h1 with rfl | h3
        · simpa [noDotPath] using hnd
        · obtain ⟨q', _, heq⟩ := List.mem_map.mp h3
          subst heq
          simp only [noDotPath, List.all_cons, Bool.and_eq_true] at hnd
          simpa using hnd.1
      rcases List.mem_cons.mp h1 with rfl | h3
      · refine ⟨c.isDirNode, ?_⟩
        rw [if_neg (by simp [hd])]
        exact List.mem_append_left _ (List.mem_cons_self _ _)
      · obtain ⟨q', hq', heq⟩ := List.mem_map.mp h3
        subst heq
        simp only [noDotPath, List.all_cons, Bool.and_eq_true] at hnd
        obtain ⟨b, hb⟩ := nodePaths_walk c q' hq' hnd.2
        refine ⟨b, ?_⟩
        rw [if_neg (by simp [hd])]
        refine List.mem_append_left _ (List.mem_cons_of_mem _ ?_)
        exact List.mem_map.mpr ⟨(q', b), hb, rfl⟩
    · obtain ⟨b, hb⟩ := nodePathsForest_walk rest q h2 hnd
      exact ⟨b, List.mem_append_right _ hb⟩
end

mutual
theorem nodePaths_ancestor (n : Node) :
    ∀ p ∈ nodePaths n, ∀ q : RPath, q ≠ [] → q <+: p → q ∈ nodePaths n := by
  cases n with
  | file c pm o => intro p hp; cases hp
  | dir pm o cs => intro p hp q hne hpre; exact nodePathsForest_ancestor cs p hp q hne hpre

theorem nodePathsForest_ancestor (f : Forest) :
    ∀ p ∈ nodePathsForest f, ∀ q : RPath, q ≠ [] → q <+: p →
      q ∈ nodePathsForest f := by
  cases f with
  | nil => intro p hp; cases hp
  | cons s c rest =>
    intro p hp q hne hpre
    unfold nodePathsForest at hp ⊢
    rcases List.mem_append.mp hp with h1 | h2
    · rcases List.mem_cons.mp h1 with rfl | h3
      · have : q = [s] := by
          cases q with
          | nil => exact absurd rfl hne
          | cons x xs =>
            rw [List.cons_prefix_cons] at hpre
            obtain ⟨rfl, hxs⟩ := hpre
            have hx : xs = [] := List.prefix_nil.mp hxs
            subst hx
            rfl
        subst this
        exact List.mem_append_left _ (List.mem_cons_self _ _)
      · obtain ⟨p', hp', heq⟩ := List.mem_map.mp h3
        subst heq
        cases q with
        | nil => exact absurd rfl hne
        | cons x xs =>
          rw [List.cons_prefix_cons] at hpre
          obtain ⟨rfl, hxs⟩ := hpre
          cases xs with
          | nil =>
            exact List.mem_append_left _ (List.mem_cons_self _ _)
          | cons y ys =>
            have := nodePaths_ancestor c p' hp' (y :: ys) (by simp) hxs
            exact List.mem_append_left _
              (List.mem_cons_of_mem _ (List.mem_map_of_mem _ this))
    · exact List.mem_append_right _ (nodePathsForest_ancestor rest p h2 q hne hpre)
end

mutual
theorem filePaths_sub_nodePaths (n : Node) :
    ∀ f ∈ filePathsNode n, f ≠ [] → f ∈ nodePaths n := by
  cases n with
  | file c p o =>
    intro f hf hne
    unfold filePathsNode at hf
    rcases List.mem_singleton.mp hf with rfl
    exact absurd rfl hne
  | dir p o cs => intro f hf hne; exact filePathsForest_sub cs f hf hne

theorem filePathsForest_sub (fr : Forest) :
    ∀ f ∈ filePathsForest fr, f ≠ [] → f ∈ nodePathsForest fr := by
  cases fr with
  | nil => intro f hf; cases hf
  | cons s c rest =>
    intro f hf hne
    unfold filePathsForest at hf
    unfold nodePathsForest
    rcases List.mem_append.mp hf with h1 | h2
    · obtain ⟨f', hf', heq⟩ := List.mem_map.mp h1
      subst heq
      by_cases hfe : f' = []
      · subst hfe
        exact List.mem_append_left _ (List.mem_cons_self _ _)
      · have := filePaths_sub_nodePaths c f' hf' hfe
        exact List.mem_append_left _
          (List.mem_cons_of_mem _ (List.mem_map_of_mem _ this))
    · exact List.mem_append_right _ (filePathsForest_sub rest f h2 hne)
end

theorem file_prefix_node (n : Node) (f q : RPath)
    (hf : f ∈ filePathsNode n) (hne : q ≠ []) (hpre : q <+: f) :
    q ∈ nodePaths n := by
  by_cases hfe : f = []
  · subst hfe
    have : q = [] := List.prefix_nil.mp hpre
    exact absurd this hne
  · exact nodePaths_ancestor n f (filePaths_sub_nodePaths n f hf hfe) q hne hpre

end Paths

namespace Protect

/-- The extraction condition of `syncNode` on a file path. -/
def extractCond (m : List Paths.RPath) (ig : Bool) (sk : List Paths.RPath)
    (p : Paths.RPath) : Bool :=
  covers m p && (ig || ! sk.contains p)

theorem filePathsOpt_syncNode_dir (m : List Paths.RPath) (ig : Bool)
    (sk : List Paths.RPath) (rel : Paths.RPath) (pm : Nat) (ow : Str)
    (cs : Paths.Forest) :
    filePathsOpt (syncNode m ig sk rel (.dir pm ow cs)) =
      Paths.filePathsForest (syncForest m ig sk rel cs) := by
  unfold syncNode
  cases hsf : syncForest m ig sk rel cs with
  | nil => simp [filePathsOpt, Paths.filePathsForest]
  | cons s c rest => simp [filePathsOpt, Paths.filePathsNode]

mutual
theorem filePaths_syncNode (m : List Paths.RPath) (ig : Bool)
    (sk : List Paths.RPath) :
    ∀ (rel : Paths.RPath) (h : Paths.Node) (f : Paths.RPath),
      f ∈ filePathsOpt (syncNode m ig sk rel h) ↔
        (f ∈ Paths.filePathsNode h ∧ extractCond m ig sk (rel ++ f) = true) := by
  intro rel h f
  cases h with
  | file c perm o =>
    unfold syncNode
    by_cases hc : extractCond m ig sk rel = true
    · rw [if_pos (by exact hc)]
      simp only [filePathsOpt, Paths.filePathsNode, List.mem_singleton]
      constructor
      · rintro rfl
        exact ⟨rfl, by simpa using hc⟩
      · rintro ⟨rfl, _⟩
        rfl
    · rw [if_neg (by exact hc)]
      simp only [filePathsOpt, List.not_mem_nil, false_iff, not_and]
      intro hf
      rcases List.mem_singleton.mp hf with rfl
      intro hcond
      exact hc (by simpa using hcond)
  | dir pm ow cs =>
    rw [filePathsOpt_syncNode_dir]
    exact filePaths_syncForest m ig sk rel cs f

theorem filePaths_syncForest (m : List Paths.RPath) (ig : Bool)
    (sk : List Paths.RPath) :
    ∀ (rel : Paths.RPath) (fr : Paths.Forest) (f : Paths.RPath),
      f ∈ Paths.filePathsForest (syncForest m ig sk rel fr) ↔
        (f ∈ Paths.filePathsForest fr ∧ extractCond m ig sk (rel ++ f) = true) := by
  intro rel fr f
  cases fr with
  | nil =>
    simp [syncForest, Paths.filePathsForest]
  | cons s c rest =>
    unfold syncForest
    have hrest := filePaths_syncForest m ig sk rel rest f
    cases hsn : syncNode m ig sk (rel ++ [s]) c with
    | none =>
      have hnone := filePaths_syncNode m ig sk (rel ++ [s]) c
      rw [hsn] at hnone
      simp only [filePathsOpt, List.not_mem_nil, false_iff, not_and] at hnone
      rw [hrest]
      simp only [Paths.filePathsForest, List.mem_append, List.mem_map]
      constructor
      · rintro ⟨hf, hcond⟩
        exact ⟨Or.inr hf, hcond⟩
      · rintro ⟨hf | hf, hcond⟩
        · obtain ⟨f', hf', rfl⟩ := hf
          have hassoc : rel ++ [s] ++ f' = rel ++ (s :: f') := by
            rw [List.append_assoc]
            rfl
          exact absurd (by rw [hassoc]; exact hcond) (hnone f' hf')
        · exact ⟨hf, hcond⟩
    | some c' =>
      have hsome := filePaths_syncNode m ig sk (rel ++ [s]) c
      rw [hsn] at hsome
      simp only [filePathsOpt] at hsome
      simp only [Paths.filePathsForest, List.mem_append, List.mem_map]
      constructor
      · rintro (⟨f', hf', rfl⟩ | hf)
        · obtain ⟨hc, hcond⟩ := (hsome f').mp hf'
          have hassoc : rel ++ [s] ++ f' = rel ++ (s :: f') := by
            rw [List.append_assoc]
            rfl
          rw [hassoc] at hcond
          exact ⟨Or.inl ⟨f', hc, rfl⟩, hcond⟩
        · obtain ⟨hc, hcond⟩ := hrest.mp hf
          exact ⟨Or.inr hc, hcond⟩
      · rintro ⟨⟨f', hf', rfl⟩ | hf, hcond⟩
        · have hassoc : rel ++ [s] ++ f' = rel ++ (s :: f') := by
            rw [List.append_assoc]
            rfl
          refine Or.inl ⟨f', (hsome f').mpr ⟨hf', ?_⟩, rfl⟩
          rw [hassoc]
          exact hcond
        · exact Or.inr (hrest.mpr ⟨hf, hcond⟩)
end

mutual
theorem syncNode_some_files_ne (m : List Paths.RPath) (ig : Bool)
    (sk : List Paths.RPath) :
    ∀ (rel : Paths.RPath) (h : Paths.Node) (n' : Paths.Node),
      syncNode m ig sk rel h = some n' → Paths.filePathsNode n' ≠ [] := by
  intro rel h n' hs
  cases h with
  | file c perm o =>
    unfold syncNode at hs
    by_cases hc : extractCond m ig sk rel = true
    · rw [if_pos (by exact hc)] at hs
      cases hs
      simp [Paths.filePathsNode]
    · rw [if_neg (by exact hc)] at hs
      cases hs
  | dir pm ow cs =>
    unfold syncNode at hs
    cases hsf : syncForest m ig sk rel cs with
    | nil => rw [hsf] at hs; cases hs
    | cons s c' rest =>
      rw [hsf] at hs
      cases hs
      show Paths.filePathsNode (.dir 493 mmOwner (.cons s c' rest)) ≠ []
      have := syncForest_files_ne m ig sk rel cs (by rw [hsf]; intro hx; cases hx)
      rw [hsf] at this
      exact this

theorem syncForest_files_ne (m : List Paths.RPath) (ig : Bool)
    (sk : List Paths.RPath) :
    ∀ (rel : Paths.RPath) (fr : Paths.Forest),
      syncForest m ig sk rel fr ≠ .nil →
      Paths.filePathsForest (syncForest m ig sk rel fr) ≠ [] := by
  intro rel fr hne
  cases fr with
  | nil => exact absurd rfl hne
  | cons s c rest =>
    unfold syncForest at hne ⊢
    cases hsn : syncNode m ig sk (rel ++ [s]) c with
    | none =>
      rw [hsn] at hne
      exact syncForest_files_ne m ig sk rel rest hne
    | some c' =>
      have hcfiles := syncNode_some_files_ne m ig sk (rel ++ [s]) c c' hsn
      show Paths.filePathsForest
        (Paths.Forest.cons s c' (syncForest m ig sk rel rest)) ≠ []
      simp only [Paths.filePathsForest]
      intro happ
      rcases List.append_eq_nil.mp happ with ⟨hmap, _⟩
      exact hcfiles (List.map_eq_nil_iff.mp hmap)
end

mutual
theorem syncNode_nodes_below_files (m : List Paths.RPath) (ig : Bool)
    (sk : List Paths.RPath) :
    ∀ (rel : Paths.RPath) (h : Paths.Node) (q : Paths.RPath),
      q ∈ nodePathsOpt (syncNode m ig sk rel h) →
      ∃ f ∈ filePathsOpt (syncNode m ig sk rel h), q <+: f := by
  intro rel h q hq
  cases h with
  | file c perm o =>
    unfold syncNode at hq ⊢
    by_cases hc : extractCond m ig sk rel = true
    · rw [if_pos (by exact hc)] at hq
      cases hq
    · rw [if_neg (by exact hc)] at hq
      cases hq
  | dir pm ow cs =>
    unfold syncNode at hq ⊢
    cases hsf : syncForest m ig sk rel cs with
    | nil => rw [hsf] at hq; cases hq
    | cons s c' rest =>
      rw [hsf] at hq
      have hq' : q ∈ Paths.nodePathsForest (Paths.Forest.cons s c' rest) := hq
      have hfor := syncForest_nodes_below_files m ig sk rel cs q
        (by rw [hsf]; exact hq')
      rw [hsf] at hfor
      show ∃ f ∈ filePathsOpt
        (some (Paths.Node.dir 493 mmOwner (Paths.Forest.cons s c' rest))), q <+: f
      simpa [filePathsOpt, Paths.filePathsNode] using hfor

theorem syncForest_nodes_below_files (m : List Paths.RPath) (ig : Bool)
    (sk : List Paths.RPath) :
    ∀ (rel : Paths.RPath) (fr : Paths.Forest) (q : Paths.RPath),
      q ∈ Paths.nodePathsForest (syncForest m ig sk rel fr) →
      ∃ f ∈ Paths.filePathsForest (syncForest m ig sk rel fr), q <+: f := by
  intro rel fr q hq
  cases fr with
  | nil =>
    simp [syncForest, Paths.nodePathsForest] at hq
  | cons s c rest =>
    unfold syncForest at hq ⊢
    cases hsn : syncNode m ig sk (rel ++ [s]) c with
    | none =>
      rw [hsn] at hq
      exact syncForest_nodes_below_files m ig sk rel rest q hq
    | some c' =>
      rw [hsn] at hq
      simp only [Paths.nodePathsForest, List.mem_append, List.mem_cons,
        List.mem_map] at hq
      rcases hq with (rfl | ⟨q', hq', rfl⟩) | hq2
      · have hne := syncNode_some_files_ne m ig sk (rel ++ [s]) c c' hsn
        obtain ⟨f0, hf0⟩ := List.exists_mem_of_ne_nil _ hne
        refine ⟨s :: f0, ?_, ?_⟩
        · simp only [Paths.filePathsForest, List.mem_append, List.mem_map]
          exact Or.inl ⟨f0, hf0, rfl⟩
        · rw [List.cons_prefix_cons]
          exact ⟨rfl, List.nil_prefix⟩
      · have hnode := syncNode_nodes_below_files m ig sk (rel ++ [s]) c q'
        rw [hsn] at hnode
        simp only [nodePathsOpt, filePathsOpt] at hnode
        obtain ⟨f0, hf0, hpre⟩ := hnode hq'
        refine ⟨s :: f0, ?_, ?_⟩
        · simp only [Paths.filePathsForest, List.mem_append, List.mem_map]
          exact Or.inl ⟨f0, hf0, rfl⟩
        · rw [List.cons_prefix_cons]
          exact ⟨rfl, hpre⟩
      · obtain ⟨f0, hf0, hpre⟩ :=
          syncForest_nodes_below_files m ig sk rel rest q hq2
        refine ⟨f0, ?_, hpre⟩
        simp only [Paths.filePathsForest, List.mem_append]
        exact Or.inr hf0
end

mutual
theorem syncNode_congr (m1 m2 : List Paths.RPath) (ig1 ig2 : Bool)
    (sk1 sk2 : List Paths.RPath) :
    ∀ (rel : Paths.RPath) (h : Paths.Node),
      (∀ p ∈ Paths.filePathsNode h,
        extractCond m1 ig1 sk1 (rel ++ p) = extractCond m2 ig2 sk2 (rel ++ p)) →
      syncNode m1 ig1 sk1 rel h = syncNode m2 ig2 sk2 rel h := by
  intro rel h hcond
  cases h with
  | file c perm o =>
    have h0 := hcond [] (by simp [Paths.filePathsNode])
    rw [List.append_nil] at h0
    unfold syncNode
    rw [show (covers m1 rel && (ig1 || ! sk1.contains rel)) =
        (covers m2 rel && (ig2 || ! sk2.contains rel)) from h0]
  | dir pm ow cs =>
    have := syncForest_congr m1 m2 ig1 ig2 sk1 sk2 rel cs
      (by intro p hp; exact hcond p (by simpa [Paths.filePathsNode] using hp))
    unfold syncNode
    rw [this]

theorem syncForest_congr (m1 m2 : List Paths.RPath) (ig1 ig2 : Bool)
    (sk1 sk2 : List Paths.RPath) :
    ∀ (rel : Paths.RPath) (fr : Paths.Forest),
      (∀ p ∈ Paths.filePathsForest fr,
        extractCond m1 ig1 sk1 (rel ++ p) = extractCond m2 ig2 sk2 (rel ++ p)) →
      syncForest m1 ig1 sk1 rel fr = syncForest m2 ig2 sk2 rel fr := by
  intro rel fr hcond
  cases fr with
  | nil => rfl
  | cons s c rest =>
    have hchild : syncNode m1 ig1 sk1 (rel ++ [s]) c =
        syncNode m2 ig2 sk2 (rel ++ [s]) c := by
      refine syncNode_congr m1 m2 ig1 ig2 sk1 sk2 (rel ++ [s]) c ?_
      intro p hp
      have hassoc : rel ++ [s] ++ p = rel ++ (s :: p) := by
        rw [List.append_assoc]
        rfl
      rw [hassoc]
      refine hcond (s :: p) ?_
      simp only [Paths.filePathsForest, List.mem_append, List.mem_map]
      exact Or.inl ⟨p, hp, rfl⟩
    have hrest : syncForest m1 ig1 sk1 rel rest = syncForest m2 ig2 sk2 rel rest := by
      refine syncForest_congr m1 m2 ig1 ig2 sk1 sk2 rel rest ?_
      intro p hp
      refine hcond p ?_
      simp only [Paths.filePathsForest, List.mem_append]
      exact Or.inr hp
    unfold syncForest
    rw [hchild, hrest]
end

theorem syncNode_skip_independent (m : List Paths.RPath)
    (sk1 sk2 : List Paths.RPath) (rel : Paths.RPath) (h : Paths.Node) :
    syncNode m true sk1 rel h = syncNode m true sk2 rel h := by
  refine syncNode_congr m m true true sk1 sk2 rel h ?_
  intro p _
  unfold extractCond
  simp

end Protect

namespace Protect

theorem cover_extracted_up (root : Str) (pats : List (Str → Bool))
    (head wt0 : Paths.Node) (sk : List Paths.RPath) (n1 : Paths.Node)
    (hE : syncNode (matchedOf root pats wt0) true sk [] head = some n1)
    (f : Paths.RPath) (hf : f ∈ Paths.filePathsNode head)
    (hcov : covers (matchedOf root pats wt0) f = true) :
    covers (matchedOf root pats n1) f = true := by
  obtain ⟨p, hpm1, hpf⟩ := (covers_iff _ f).mp hcov
  obtain ⟨b, hw0, hpat⟩ := (mem_matchedOf root pats wt0 p).mp hpm1
  have hnd : Paths.noDotPath p = true := Paths.walkEntries_noDot wt0 (p, b) hw0
  have hpn0 : p ∈ Paths.nodePaths wt0 := Paths.walkEntries_sub wt0 (p, b) hw0
  have hpne : p ≠ [] := Paths.nodePaths_ne_nil wt0 p hpn0
  have hfE : f ∈ filePathsOpt (syncNode (matchedOf root pats wt0) true sk [] head) := by
    refine (filePaths_syncNode _ true sk [] head f).mpr ⟨hf, ?_⟩
    unfold extractCond
    simp [hcov]
  rw [hE] at hfE
  have hfn1 : f ∈ Paths.filePathsNode n1 := hfE
  have hpn1 : p ∈ Paths.nodePaths n1 := Paths.file_prefix_node n1 f p hfn1 hpne hpf
  obtain ⟨b', hb'⟩ := Paths.nodePaths_walk n1 p hpn1 hnd
  have hpm2 : p ∈ matchedOf root pats n1 :=
    (mem_matchedOf root pats n1 p).mpr ⟨b', hb', hpat⟩
  exact (covers_iff _ f).mpr ⟨p, hpm2, hpf⟩

theorem cover_extracted_down (root : Str) (pats : List (Str → Bool))
    (head wt0 : Paths.Node) (sk : List Paths.RPath) (n1 : Paths.Node)
    (hE : syncNode (matchedOf root pats wt0) true sk [] head = some n1)
    (f : Paths.RPath) (_hf : f ∈ Paths.filePathsNode head)
    (hcov2 : covers (matchedOf root pats n1) f = true) :
    covers (matchedOf root pats wt0) f = true := by
  obtain ⟨q, hqm2, hqf⟩ := (covers_iff _ f).mp hcov2
  obtain ⟨b, hw1, hqpat⟩ := (mem_matchedOf root pats n1 q).mp hqm2
  have hndq : Paths.noDotPath q = true := Paths.walkEntries_noDot n1 (q, b) hw1
  have hqn1 : q ∈ Paths.nodePaths n1 := Paths.walkEntries_sub n1 (q, b) hw1
  have hqne : q ≠ [] := Paths.nodePaths_ne_nil n1 q hqn1
  have hqbelow := syncNode_nodes_below_files (matchedOf root pats wt0) true sk
    [] head q (by rw [hE]; exact hqn1)
  obtain ⟨f1, hf1E, hqf1⟩ := hqbelow
  obtain ⟨hf1head, hf1cond⟩ :=
    (filePaths_syncNode (matchedOf root pats wt0) true sk [] head f1).mp hf1E
  have hcov1 : covers (matchedOf root pats wt0) f1 = true := by
    unfold extractCond at hf1cond
    simp only [List.nil_append, Bool.true_or, Bool.and_true] at hf1cond
    exact hf1cond
  obtain ⟨p, hpm1, hpf1⟩ := (covers_iff _ f1).mp hcov1
  rcases prefixComparable hpf1 hqf1 with hpq | hqp
  · exact (covers_iff _ f).mpr ⟨p, hpm1, hpq.trans hqf⟩
  · obtain ⟨bp, hwp, _⟩ := (mem_matchedOf root pats wt0 p).mp hpm1
    have hpn0 : p ∈ Paths.nodePaths wt0 := Paths.walkEntries_sub wt0 (p, bp) hwp
    have hqn0 : q ∈ Paths.nodePaths wt0 :=
      Paths.nodePaths_ancestor wt0 p hpn0 q hqne hqp
    obtain ⟨bq, hbq⟩ := Paths.nodePaths_walk wt0 q hqn0 hndq
    have hqm1 : q ∈ matchedOf root pats wt0 :=
      (mem_matchedOf root pats wt0 q).mpr ⟨bq, hbq, hqpat⟩
    exact (covers_iff _ f).mpr ⟨q, hqm1, hqf⟩

theorem covers_stable (root : Str) (pats : List (Str → Bool))
    (head wt0 : Paths.Node) (sk : List Paths.RPath) (n1 : Paths.Node)
    (hE : syncNode (matchedOf root pats wt0) true sk [] head = some n1)
    (f : Paths.RPath) (hf : f ∈ Paths.filePathsNode head) :
    covers (matchedOf root pats n1) f = covers (matchedOf root pats wt0) f := by
  cases hm1 : covers (matchedOf root pats wt0) f with
  | true => exact cover_extracted_up root pats head wt0 sk n1 hE f hf hm1
  | false =>
    cases hm2 : covers (matchedOf root pats n1) f with
    | false => rfl
    | true =>
      have := cover_extracted_down root pats head wt0 sk n1 hE f hf hm2
      rw [this] at hm1
      cases hm1

end Protect


/-- Claim C4: the full protection run is idempotent on an unchanged HEAD —
running it twice yields a destination tree (content, ownership and
permission metadata) identical to the one after the first run; and (the
mechanism that makes re-protection work) the snapshot extraction is
performed with `--ignore-skip-worktree-bits`, so it is independent of
whatever skip-worktree bits an earlier run has set and previously
protected files are re-extracted. -/
theorem C4_protectRun_idempotent (root : Str) (pats : List (Str → Bool))
    (w : Protect.World) :
    (Protect.protectRun root pats (Protect.protectRun root pats w)).wt =
      (Protect.protectRun root pats w).wt ∧
    (∀ (m sk1 sk2 : List Paths.RPath) (rel : Paths.RPath) (n : Paths.Node),
      Protect.syncNode m true sk1 rel n = Protect.syncNode m true sk2 rel n) := by
  refine ⟨?_, fun m sk1 sk2 rel n => Protect.syncNode_skip_independent m sk1 sk2 rel n⟩
  by_cases hm1 : Protect.matchedOf root pats w.wt = []
  · have h1 : Protect.protectRun root pats w = w := by
      unfold Protect.protectRun
      rw [if_pos hm1]
    rw [h1, h1]
  · have h1 : Protect.protectRun root pats w =
        ⟨w.head,
          (Protect.syncNode (Protect.matchedOf root pats w.wt) true w.skip
            [] w.head).getD Protect.emptyRoot,
          w.skip ++ (Paths.filePathsNode w.head).filter
            (Protect.covers (Protect.matchedOf root pats w.wt))⟩ := by
      unfold Protect.protectRun
      rw [if_neg hm1]
    rw [h1]
    cases hE : Protect.syncNode (Protect.matchedOf root pats w.wt) true w.skip
        [] w.head with
    | none =>
      have hgd : (none : Option Paths.Node).getD Protect.emptyRoot =
          Protect.emptyRoot := rfl
      rw [hgd]
      generalize w.skip ++ (Paths.filePathsNode w.head).filter
        (Protect.covers (Protect.matchedOf root pats w.wt)) = sk1
      unfold Protect.protectRun
      rw [if_pos (show Protect.matchedOf root pats
        (Protect.World.mk w.head Protect.emptyRoot sk1).wt = [] from rfl)]
    | some n1 =>
      simp only [Option.getD_some]
      generalize w.skip ++ (Paths.filePathsNode w.head).filter
        (Protect.covers (Protect.matchedOf root pats w.wt)) = sk1
      unfold Protect.protectRun
      by_cases hm2 : Protect.matchedOf root pats n1 = []
      · rw [if_pos (show Protect.matchedOf root pats
          (Protect.World.mk w.head n1 sk1).wt = [] from hm2)]
      · rw [if_neg (show ¬ Protect.matchedOf root pats
          (Protect.World.mk w.head n1 sk1).wt = [] from hm2)]
        show (Protect.syncNode (Protect.matchedOf root pats n1) true sk1
          [] w.head).getD Protect.emptyRoot = n1
        rw [Protect.syncNode_skip_independent (Protect.matchedOf root pats n1)
          sk1 w.skip [] w.head]
        have hcongr : Protect.syncNode (Protect.matchedOf root pats n1) true
            w.skip [] w.head =
            Protect.syncNode (Protect.matchedOf root pats w.wt) true w.skip
              [] w.head := by
          refine Protect.syncNode_congr _ _ true true _ _ [] w.head ?_
          intro p hp
          unfold Protect.extractCond
          rw [List.nil_append,
            Protect.covers_stable root pats w.head w.wt w.skip n1 hE p hp]
        rw [hcongr, hE]
        rfl
